import Mathlib

/-!
# getopt(1): shell quoting, long option table and output formatter

A shallow embedding of `getopt.c`.

* A C string is the list of its characters before the terminating NUL.  Where
  the code writes NUL into a string (`_tcstok`, the arity suffix check of
  `add_long_options`) the buffer is a list of cells with the NUL stored and
  positions are indices into it.
* The global parsing switches of the program are gathered in `Config`, the
  static variables of the long option table in `LongOpts`.
* A read or write outside the object at hand, or through a null pointer, ends
  the run with an undefined outcome (`Outcome.undefined`, or `none` for the
  formatter).
* The scanner `getopt_long_fp` is a library function; the formatter
  `generate_output` and the option loop of `wmain` take the sequence of its
  returns as input.  Where a property is about the scanner itself, the
  scanner is modelled from the specification (`scan`).
-/

namespace Getopt

/-! ## Constants and global switches -/

/-- Exit code used when getopt(3) returned an error. -/
def GETOPT_EXIT_CODE : Nat := 1

/-- Exit code for a problem with the parameters of getopt(1) itself. -/
def PARAMETER_EXIT_CODE : Nat := 2

/-- Success status of the C library. -/
def EXIT_SUCCESS : Nat := 0

/-- Code returned by the scanner for a non-option found in its in-place mode. -/
def NON_OPT : Nat := 1

/-- Code returned by the scanner when a long option is found. -/
def LONG_OPT : Nat := 2

/-- The shells recognized. -/
inductive shell_t where
  | BASH
  | TCSH
  deriving DecidableEq, Repr

/-- The global variables that tell how to parse and print: `shell`,
`quiet_errors`, `quiet_output` and `quote` of the source. -/
structure Config where
  shell : shell_t
  quiet_errors : Bool
  quiet_output : Bool
  quote : Bool
  deriving DecidableEq, Repr

/-- The initial values of the global variables. -/
def Config.initial : Config :=
  { shell := shell_t.BASH, quiet_errors := false, quiet_output := false, quote := true }

/-! ## normalize -/

/-- The single quote character. -/
def SQ : Char := Char.ofNat 39

/-- The backslash character. -/
def BS : Char := Char.ofNat 92

/-- The NUL character that terminates a C string. -/
def NUL : Char := Char.ofNat 0

/-- The classification `isspace` of the C library in the "C" locale (the
program never calls `setlocale`): space, tab, newline, vertical tab, form
feed and carriage return. -/
def isspace (c : Char) : Bool :=
  c == ' ' || c == '\t' || c == '\n' || c == Char.ofNat 11 || c == Char.ofNat 12 || c == '\r'

/-- The `while (*argptr)` loop of `normalize`: `buf` holds the characters
written through `bufptr` so far, the first argument is what is left of `arg`. -/
def normalize_loop (shell : shell_t) : List Char → List Char → List Char
  | [], buf => buf
  | c :: rest, buf =>
    if c = SQ then
      normalize_loop shell rest (buf ++ [SQ, BS, SQ, SQ])
    else if shell = shell_t.TCSH ∧ c = '!' then
      normalize_loop shell rest (buf ++ [SQ, BS, '!', SQ])
    else if shell = shell_t.TCSH ∧ c = '\n' then
      normalize_loop shell rest (buf ++ [BS, 'n'])
    else if shell = shell_t.TCSH ∧ isspace c = true then
      normalize_loop shell rest (buf ++ [SQ, BS, c, SQ])
    else
      normalize_loop shell rest (buf ++ [c])

/-- The library copy `wcscpy` into a fresh buffer: the characters of the
source are read one by one and written after those already in `buf`. -/
def wcscpy : List Char → List Char → List Char
  | [], buf => buf
  | c :: rest, buf => wcscpy rest (buf ++ [c])

/-- The function `normalize`: the C string left in `BUFFER` (the characters
written before the final NUL).  With `quote` off the argument is copied into
the fresh buffer; otherwise the buffer starts with a single quote, receives
the output of the loop and is closed by a single quote.  The argument is
only read. -/
def normalize (cfg : Config) (arg : List Char) : List Char :=
  if cfg.quote = false then
    wcscpy arg []
  else
    normalize_loop cfg.shell arg [SQ] ++ [SQ]

/-! ### Reference encoding and shell decoding (specification side) -/

/-- The per-character replacement described by the specification. -/
def enc (shell : shell_t) (c : Char) : List Char :=
  if c = SQ then [SQ, BS, SQ, SQ]
  else match shell with
    | shell_t.BASH => [c]
    | shell_t.TCSH =>
      if c = '!' then [SQ, BS, '!', SQ]
      else if c = '\n' then [BS, 'n']
      else if isspace c = true then [SQ, BS, c, SQ]
      else [c]

/-- The blanks at which a POSIX shell splits words. -/
def isBlank (c : Char) : Bool :=
  c == ' ' || c == '\t' || c == '\n'

/-- The reading state of the shell: outside quotes, inside a single-quoted
span, or right after an unquoted backslash. -/
inductive QState where
  | plain
  | quoted
  | escaped
  deriving DecidableEq, Repr

/-- Word splitting and quote removal of a POSIX shell, restricted to single
quotes and backslashes: inside a single-quoted span every character is
literal, a backslash outside quotes makes the next character literal, an
unquoted blank ends the word.  `cur` is the word in progress (`none` between
words), `acc` the finished words.  An unterminated quote or a trailing
backslash gives `none`. -/
def shellWordsAux : List Char → QState → Option (List Char) → List (List Char) →
    Option (List (List Char))
  | [], QState.plain, cur, acc => some (acc ++ cur.toList)
  | [], QState.quoted, _, _ => none
  | [], QState.escaped, _, _ => none
  | c :: rest, QState.quoted, cur, acc =>
    if c = SQ then shellWordsAux rest QState.plain cur acc
    else shellWordsAux rest QState.quoted (some (cur.getD [] ++ [c])) acc
  | c :: rest, QState.escaped, cur, acc =>
    shellWordsAux rest QState.plain (some (cur.getD [] ++ [c])) acc
  | c :: rest, QState.plain, cur, acc =>
    if c = SQ then shellWordsAux rest QState.quoted (some (cur.getD [])) acc
    else if c = BS then shellWordsAux rest QState.escaped cur acc
    else if isBlank c = true then shellWordsAux rest QState.plain none (acc ++ cur.toList)
    else shellWordsAux rest QState.plain (some (cur.getD [] ++ [c])) acc

/-- The words a POSIX shell reads from a line. -/
def shellWords (line : List Char) : Option (List (List Char)) :=
  shellWordsAux line QState.plain none []

/-! ## The long option table -/

/-- Modelled from the spec: the header getopt.h is not among the sources; the
arity None of the specification is the value `no_argument` of the
getopt_long interface. -/
def no_argument : Nat := 0

/-- Modelled from the spec: the header getopt.h is not among the sources; the
arity Required of the specification is the value `required_argument` of the
getopt_long interface. -/
def required_argument : Nat := 1

/-- Modelled from the spec: the header getopt.h is not among the sources; the
arity Optional of the specification is the value `optional_argument` of the
getopt_long interface. -/
def optional_argument : Nat := 2

/-- The `struct option` of the getopt_long interface: `name` and `flag` are
pointers (`none` is NULL). -/
structure option where
  name : Option (List Char)
  has_arg : Nat
  flag : Option Nat
  val : Nat
  deriving DecidableEq, Repr

/-- The static variables `long_options`, `long_options_length` and
`long_options_nr`.  A cell of the array is `none` as long as nothing was
written to it since it was allocated. -/
structure LongOpts where
  long_options : List (Option option)
  long_options_length : Nat
  long_options_nr : Nat
  deriving DecidableEq, Repr

/-- The static variables before the first call. -/
def LongOpts.initial : LongOpts :=
  { long_options := [], long_options_length := 0, long_options_nr := 0 }

/-- Number of cells added when the array is full. -/
def LONG_OPTIONS_INCR : Nat := 10

/-- The all-null entry that closes the table. -/
def option.terminator : option :=
  { name := none, has_arg := 0, flag := none, val := 0 }

/-- The function `add_longopt`.  A null `name` resets the table; the array
grows by `LONG_OPTIONS_INCR` indeterminate cells when it is full; the
terminator is written at index `long_options_nr`, the new descriptor (when
there is one) over the previous terminator at `long_options_nr - 1`. -/
def add_longopt (st : LongOpts) (name : Option (List Char)) (has_arg : Nat) : LongOpts :=
  let st1 : LongOpts := if name.isNone then LongOpts.initial else st
  let st2 : LongOpts :=
    if st1.long_options_nr = st1.long_options_length then
      { st1 with
        long_options_length := st1.long_options_length + LONG_OPTIONS_INCR,
        long_options := st1.long_options ++ List.replicate LONG_OPTIONS_INCR none }
    else st1
  let arr := st2.long_options.set st2.long_options_nr (some option.terminator)
  let arr2 :=
    if st2.long_options_nr ≠ 0 ∧ name.isSome then
      arr.set (st2.long_options_nr - 1)
        (some { name := name, has_arg := has_arg, flag := none, val := LONG_OPT })
    else arr
  { st2 with long_options := arr2, long_options_nr := st2.long_options_nr + 1 }

/-- The call `init_longopt()`, which is `add_longopt(NULL,0)`. -/
def init_longopt (st : LongOpts) : LongOpts :=
  add_longopt st none 0

/-- The descriptors of the table: the cells before the terminator. -/
def descriptors (st : LongOpts) : List (Option option) :=
  st.long_options.take (st.long_options_nr - 1)

/-- The table is initialised and its bookkeeping is consistent: the array has
`long_options_length` cells and the used cells fit in it. -/
def LongOpts.wf (st : LongOpts) : Prop :=
  st.long_options.length = st.long_options_length ∧
  1 ≤ st.long_options_nr ∧ st.long_options_nr ≤ st.long_options_length

instance (st : LongOpts) : Decidable st.wf := by
  unfold LongOpts.wf
  infer_instance

/-! ## add_long_options -/

/-- How a call ends: it returns, the process exits with a code (as
`parse_error` does), the call reads outside the object it was given
(undefined behaviour), or the model ran out of fuel. -/
inductive Outcome (α : Type) where
  | ok (a : α)
  | exit (code : Nat)
  | undefined
  | out_of_fuel
  deriving DecidableEq, Repr

/-- The function `parse_error`: after its messages the process exits with
`PARAMETER_EXIT_CODE`. -/
def parse_error {α : Type} (_message : Option String) : Outcome α :=
  Outcome.exit PARAMETER_EXIT_CODE

/-- The delimiters handed to `_tcstok`: comma, space, tab and newline. -/
def isDelim (c : Char) : Bool :=
  c == ',' || c == ' ' || c == '\t' || c == '\n'

/-- The character in cell `i` of a string buffer. -/
def peek (mem : List Char) (i : Nat) : Char :=
  mem.getD i NUL

/-- The C string that starts at cell `p`: the characters up to the first NUL. -/
def cstr (mem : List Char) (p : Nat) : List Char :=
  (mem.drop p).takeWhile (fun c => c != NUL)

/-- The library function `_tcslen` on the string at cell `p`. -/
def tcslen (mem : List Char) (p : Nat) : Nat :=
  (cstr mem p).length

/-- The library function `_tcsspn` with the delimiters: the number of leading
delimiters of the string at `p`. -/
def tcsspn (mem : List Char) (p : Nat) : Nat :=
  ((mem.drop p).takeWhile isDelim).length

/-- The library function `_tcscspn` with the delimiters: the number of leading
characters of the string at `p` that are neither a delimiter nor NUL. -/
def tcscspn (mem : List Char) (p : Nat) : Nat :=
  ((mem.drop p).takeWhile (fun c => c != NUL && !isDelim c)).length

/-- What a call of `_tcstok` leaves: the token it returns (`none` is NULL),
the buffer, and its saved position. -/
structure TokResult where
  tok : Option Nat
  mem : List Char
  save : Nat
  deriving DecidableEq, Repr

/-- The library function `_tcstok` with the delimiters of `add_long_options`.
`s` is its first argument (`none` is NULL: continue at the saved position).
Leading delimiters are skipped; at the end of the string NULL is returned;
otherwise the token runs to the next delimiter, which is overwritten by NUL,
and scanning resumes after it. -/
def tcstok (mem : List Char) (s : Option Nat) (save : Nat) : TokResult :=
  let s0 := s.getD save
  let s1 := s0 + tcsspn mem s0
  if peek mem s1 = NUL then
    { tok := none, mem := mem, save := s1 }
  else
    let e := s1 + tcscspn mem s1
    if peek mem e = NUL then
      { tok := some s1, mem := mem, save := e }
    else
      { tok := some s1, mem := mem.set e NUL, save := e + 1 }

/-- The `while (tokptr)` loop of `add_long_options`.  `tokptr` is the current
token, `save` the saved position of `_tcstok`, `mem` the buffer `options`.
The read of `tokptr[_tcslen(tokptr) - 2]` is outside the buffer when the
token is the first cell and has one character. -/
def add_long_options_loop : Nat → List Char → Option Nat → Nat → LongOpts → Outcome LongOpts
  | _, _, none, _, st => Outcome.ok st
  | 0, _, some _, _, _ => Outcome.out_of_fuel
  | fuel + 1, mem, some tokptr, save, st =>
    if 0 < tcslen mem tokptr then
      if peek mem (tokptr + tcslen mem tokptr - 1) = ':' then
        if tokptr + tcslen mem tokptr < 2 then
          Outcome.undefined
        else
          let mem1 :=
            if peek mem (tokptr + tcslen mem tokptr - 2) = ':' then
              mem.set (tokptr + tcslen mem tokptr - 2) NUL
            else
              mem.set (tokptr + tcslen mem tokptr - 1) NUL
          let arg_opt :=
            if peek mem (tokptr + tcslen mem tokptr - 2) = ':' then optional_argument
            else required_argument
          if tcslen mem1 tokptr = 0 then
            parse_error (some "empty long option after -l or --long argument")
          else
            let r := tcstok mem1 none save
            add_long_options_loop fuel r.mem r.tok r.save
              (add_longopt st (some (cstr mem1 tokptr)) arg_opt)
      else
        let r := tcstok mem none save
        add_long_options_loop fuel r.mem r.tok r.save
          (add_longopt st (some (cstr mem tokptr)) no_argument)
    else
      let r := tcstok mem none save
      add_long_options_loop fuel r.mem r.tok r.save st

/-- The function `add_long_options` on the string `options` (its characters
before the NUL).  The loop runs at most once per character of the string. -/
def add_long_options (options : List Char) (st : LongOpts) : Outcome LongOpts :=
  let r := tcstok (options ++ [NUL]) (some 0) 0
  add_long_options_loop options.length r.mem r.tok r.save st

/-! ### Tokens and arity suffixes (specification side) -/

/-- The maximal runs of characters that are not delimiters, in order; `cur`
is the run in progress. -/
def tokensAux : List Char → List Char → List (List Char)
  | [], cur => if cur = [] then [] else [cur]
  | c :: rest, cur =>
    if isDelim c = true then
      if cur = [] then tokensAux rest [] else cur :: tokensAux rest []
    else tokensAux rest (cur ++ [c])

/-- The tokens of a specification string. -/
def tokens (s : List Char) : List (List Char) :=
  tokensAux s []

/-- The arity a token designates: Optional for a trailing "::", Required for
a trailing ":", None otherwise. -/
def tokenArity (t : List Char) : Nat :=
  if [':', ':'] <:+ t then optional_argument
  else if [':'] <:+ t then required_argument
  else no_argument

/-- The name a token designates: the token without its arity suffix. -/
def tokenName (t : List Char) : List Char :=
  if [':', ':'] <:+ t then t.dropLast.dropLast
  else if [':'] <:+ t then t.dropLast
  else t

/-- The descriptor that `add_longopt` stores for a name and an arity. -/
def descriptor (name : List Char) (has_arg : Nat) : Option option :=
  some { name := some name, has_arg := has_arg, flag := none, val := LONG_OPT }

/-- The descriptor a token designates. -/
def tokenDescriptor (t : List Char) : Option option :=
  descriptor (tokenName t) (tokenArity t)

/-- A token whose name is empty once the arity suffix is stripped: ":" or "::". -/
def emptyName (t : List Char) : Bool :=
  t == [':'] || t == [':', ':']

/-- The cells of a token once the arity suffix has been cut off by the NUL
that `add_long_options` writes into it. -/
def stripped (t : List Char) : List Char :=
  if [':', ':'] <:+ t then t.dropLast.dropLast ++ [NUL, ':']
  else if [':'] <:+ t then t.dropLast ++ [NUL]
  else t

/-- The table after the tokens have been registered in order, or the exit of
`parse_error` at the first token whose name is empty. -/
def tokensFold : List (List Char) → LongOpts → Outcome LongOpts
  | [], st => Outcome.ok st
  | t :: ts, st =>
    if emptyName t = true then Outcome.exit PARAMETER_EXIT_CODE
    else tokensFold ts (add_longopt st (some (tokenName t)) (tokenArity t))

/-- The string starts with the token ":" (a colon that is the whole string or
is followed by a delimiter). -/
def colonFirst : List Char → Bool
  | [] => false
  | [c] => c == ':'
  | c :: d :: _ => c == ':' && isDelim d

/-! ## generate_output -/

/-- One return of the scanner `getopt_long_fp` other than EOF: the value
returned (a character code, `NON_OPT` or `LONG_OPT`) and the values of the
globals `optarg` (`none` is NULL) and `longindex` after the call.  The scanner
is the library function reached through the function pointer; the list of
its returns before EOF and the value of `optind` it leaves at EOF are the
inputs of the formatter. -/
structure ScanResult where
  opt : Nat
  optarg : Option (List Char)
  longindex : Nat
  deriving DecidableEq, Repr

/-- The library function `_tcschr`: the index of the first cell of the string
(its NUL included) that holds `c`, `none` (NULL) when there is none. -/
def tcschr (s : List Char) (c : Char) : Option Nat :=
  if (s ++ [NUL]).indexOf c < (s ++ [NUL]).length then some ((s ++ [NUL]).indexOf c) else none

/-- The body of the `while` loop of `generate_output`, run over the returns
of the scanner in order.  `out` is the text written on standard output so
far, `exit_code` the local variable of that name.  The result is `none`
when the code reads outside an array or through a null pointer. -/
def generate_output_loop (cfg : Config) (optstr : List Char) (longopts : List (Option option)) :
    List ScanResult → List Char → Nat → Option (List Char × Nat)
  | [], out, exit_code => some (out, exit_code)
  | r :: rest, out, exit_code =>
    if r.opt = '?'.toNat ∨ r.opt = ':'.toNat then
      generate_output_loop cfg optstr longopts rest out GETOPT_EXIT_CODE
    else if cfg.quiet_output = false then
      if r.opt = LONG_OPT then
        match longopts.get? r.longindex with
        | some (some o) =>
          match o.name with
          | some name =>
            if o.has_arg ≠ 0 then
              generate_output_loop cfg optstr longopts rest
                (out ++ [' ', '-', '-'] ++ name ++ ' ' :: normalize cfg (r.optarg.getD []))
                exit_code
            else
              generate_output_loop cfg optstr longopts rest (out ++ [' ', '-', '-'] ++ name)
                exit_code
          | none => none
        | _ => none
      else if r.opt = NON_OPT then
        match r.optarg with
        | some arg =>
          generate_output_loop cfg optstr longopts rest (out ++ ' ' :: normalize cfg arg)
            exit_code
        | none => none
      else
        match tcschr optstr (Char.ofNat r.opt) with
        | some i =>
          if optstr.length < i + 1 then none
          else if peek (optstr ++ [NUL]) (i + 1) = ':' then
            generate_output_loop cfg optstr longopts rest
              (out ++ [' ', '-', Char.ofNat r.opt] ++ ' ' :: normalize cfg (r.optarg.getD []))
              exit_code
          else
            generate_output_loop cfg optstr longopts rest (out ++ [' ', '-', Char.ofNat r.opt])
              exit_code
        | none =>
          generate_output_loop cfg optstr longopts rest (out ++ [' ', '-', Char.ofNat r.opt])
            exit_code
    else
      generate_output_loop cfg optstr longopts rest out exit_code

/-- The loop `while (optind < argc)` that prints the remaining parameters:
`n` is the number of rounds left, `argc - optind`. -/
def operands_loop (cfg : Config) (argv : List (List Char)) :
    Nat → Nat → List Char → Option (List Char)
  | 0, _, out => some out
  | n + 1, optind, out =>
    match argv.get? optind with
    | some arg => operands_loop cfg argv n (optind + 1) (out ++ ' ' :: normalize cfg arg)
    | none => none

/-- The function `generate_output`: the text written on standard output and
the status returned.  `results` are the returns of the scanner before EOF
and `optind` the index it leaves.  The assignments to `opterr` (when
`quiet_errors` is set) and to `optind` before the loop configure the scanner
and write nothing. -/
def generate_output (cfg : Config) (argv : List (List Char)) (argc : Nat) (optstr : List Char)
    (longopts : List (Option option)) (results : List ScanResult) (optind : Nat) :
    Option (List Char × Nat) :=
  match generate_output_loop cfg optstr longopts results [] EXIT_SUCCESS with
  | none => none
  | some (out, exit_code) =>
    if cfg.quiet_output = false then
      match operands_loop cfg argv (argc - optind) optind (out ++ [' ', '-', '-']) with
      | some out2 => some (out2 ++ ['\n'], exit_code)
      | none => none
    else some (out, exit_code)

/-! ### Records of the output line (specification side) -/

/-- An error return of the scanner: '?' or ':'. -/
def isError (r : ScanResult) : Bool :=
  r.opt == '?'.toNat || r.opt == ':'.toNat

/-- The first occurrence of `c` in the short option string is immediately
followed by a colon. -/
def followedByColon (optstr : List Char) (c : Char) : Bool :=
  match optstr.dropWhile (fun d => d != c) with
  | _ :: d :: _ => d == ':'
  | _ => false

/-- The name of entry `i` of the table (empty when there is none). -/
def entryName (longopts : List (Option option)) (i : Nat) : List Char :=
  match longopts.get? i with
  | some (some o) => o.name.getD []
  | _ => []

/-- The arity of entry `i` of the table. -/
def entryHasArg (longopts : List (Option option)) (i : Nat) : Nat :=
  match longopts.get? i with
  | some (some o) => o.has_arg
  | _ => 0

/-- The argument written for an option that is declared with one: the text
the scanner supplied, the empty text when it supplied none. -/
def argText (cfg : Config) (r : ScanResult) : List Char :=
  ' ' :: normalize cfg (r.optarg.getD [])

/-- The record written for one return of the scanner: nothing for an error,
the name and possibly the argument for a long option, the parameter for a
non-option, the letter and possibly the argument for a short option. -/
def record (cfg : Config) (optstr : List Char) (longopts : List (Option option))
    (r : ScanResult) : List Char :=
  if isError r = true then []
  else if r.opt = LONG_OPT then
    [' ', '-', '-'] ++ entryName longopts r.longindex ++
      (if entryHasArg longopts r.longindex ≠ 0 then argText cfg r else [])
  else if r.opt = NON_OPT then argText cfg r
  else
    [' ', '-', Char.ofNat r.opt] ++
      (if followedByColon optstr (Char.ofNat r.opt) = true then argText cfg r else [])

/-- The record that the claim about option emission describes: it knows
errors, long options and short options only, so every other return is
printed as a short option. -/
def claimedRecord (cfg : Config) (optstr : List Char) (longopts : List (Option option))
    (r : ScanResult) : List Char :=
  if isError r = true then []
  else if r.opt = LONG_OPT then
    [' ', '-', '-'] ++ entryName longopts r.longindex ++
      (if entryHasArg longopts r.longindex ≠ 0 then argText cfg r else [])
  else
    [' ', '-', Char.ofNat r.opt] ++
      (if followedByColon optstr (Char.ofNat r.opt) = true then argText cfg r else [])

/-- The return of the scanner can be printed without reading outside the
table or through a null pointer: a long option names an entry of the table
that has a name, a non-option comes with its text, a short option is not the
NUL character. -/
def printable (longopts : List (Option option)) (r : ScanResult) : Bool :=
  if isError r = true then true
  else if r.opt = LONG_OPT then
    match longopts.get? r.longindex with
    | some (some o) => o.name.isSome
    | _ => false
  else if r.opt = NON_OPT then r.optarg.isSome
  else Char.ofNat r.opt != NUL

/-- The parameters from `optind` to `argc - 1`, each written after a space. -/
def operandsText (cfg : Config) (argv : List (List Char)) (argc optind : Nat) : List Char :=
  (((argv.take argc).drop optind).map (fun arg => ' ' :: normalize cfg arg)).flatten

/-- The status of a run: `GETOPT_EXIT_CODE` when some return is an error. -/
def statusOf (results : List ScanResult) : Nat :=
  if results.any isError = true then GETOPT_EXIT_CODE else EXIT_SUCCESS

/-- The part of a record that names the option: " --" and the name of the
table entry for a long option, " -" and the letter for a short option. -/
def optionHead (longopts : List (Option option)) (r : ScanResult) : List Char :=
  if r.opt = LONG_OPT then [' ', '-', '-'] ++ entryName longopts r.longindex
  else [' ', '-', Char.ofNat r.opt]

/-- The option is declared with an argument: a long option whose table entry
has a nonzero `has_arg`, a short option whose first occurrence in the short
option string is followed by a colon. -/
def declaredWithArg (optstr : List Char) (longopts : List (Option option))
    (r : ScanResult) : Bool :=
  if r.opt = LONG_OPT then entryHasArg longopts r.longindex != 0
  else followedByColon optstr (Char.ofNat r.opt)

/-- Splitting a text at its spaces; `cur` is the piece in progress.  Empty
pieces are kept. -/
def splitSpacesAux : List Char → List Char → List (List Char)
  | [], cur => [cur]
  | c :: rest, cur =>
    if c = ' ' then cur :: splitSpacesAux rest [] else splitSpacesAux rest (cur ++ [c])

/-- The space-separated tokens of an output line: the line without its final
newline, split at the spaces. -/
def lineTokens (out : List Char) : List (List Char) :=
  splitSpacesAux out.dropLast []

/-- The tokens of the record of one return of the scanner. -/
def recordTokens (cfg : Config) (optstr : List Char) (longopts : List (Option option))
    (r : ScanResult) : List (List Char) :=
  if isError r = true then []
  else if r.opt = LONG_OPT then
    (['-', '-'] ++ entryName longopts r.longindex) ::
      (if entryHasArg longopts r.longindex ≠ 0 then [normalize cfg (r.optarg.getD [])] else [])
  else if r.opt = NON_OPT then [normalize cfg (r.optarg.getD [])]
  else
    ['-', Char.ofNat r.opt] ::
      (if followedByColon optstr (Char.ofNat r.opt) = true then
        [normalize cfg (r.optarg.getD [])] else [])

/-- The number of bare "--" pieces of a text split at its spaces. -/
def bareMarkers (t : List Char) : Nat :=
  (splitSpacesAux t []).count ['-', '-']

/-- The bare "--" pieces that the written form of an argument text adds to
the line.  With quoting disabled they are those of the text itself.  With
quoting enabled there is none under the C-shell dialect, and under the Bourne
dialect they are the pieces "--" of the text other than its first and its
last piece, that is the occurrences of " -- " in the text. -/
def argMarkers (cfg : Config) (arg : List Char) : Nat :=
  if cfg.quote = true then
    match cfg.shell with
    | shell_t.BASH => ((splitSpacesAux arg []).tail.dropLast).count ['-', '-']
    | shell_t.TCSH => 0
  else bareMarkers arg

/-- The bare "--" pieces that the record of one return of the scanner adds
to the line: those of "--" followed by the name for a long option, one for
the short option whose letter is a dash, and those of the argument text when
one is written. -/
def resultMarkers (cfg : Config) (optstr : List Char) (longopts : List (Option option))
    (r : ScanResult) : Nat :=
  if isError r = true then 0
  else if r.opt = LONG_OPT then
    bareMarkers (['-', '-'] ++ entryName longopts r.longindex) +
      (if entryHasArg longopts r.longindex ≠ 0 then argMarkers cfg (r.optarg.getD []) else 0)
  else if r.opt = NON_OPT then argMarkers cfg (r.optarg.getD [])
  else
    (if Char.ofNat r.opt = '-' then 1 else 0) +
      (if followedByColon optstr (Char.ofNat r.opt) = true then
        argMarkers cfg (r.optarg.getD []) else 0)

/-- The cells written through `bufptr` when quoting is enabled, in the order
of their indices: the opening quote, the output of the loop, the closing
quote and the final NUL. -/
def normalize_cells (shell : shell_t) (arg : List Char) : List Char :=
  normalize_loop shell arg [SQ] ++ [SQ, NUL]

/-- The characters that `normalize` replaces by four characters: the single
quote, and under the C-shell dialect the exclamation mark and the whitespace
other than newline. -/
def expandsToFour (shell : shell_t) (c : Char) : Bool :=
  c == SQ || (shell == shell_t.TCSH && (c == '!' || (isspace c && c != '\n')))

/-- The number that `normalize` hands to `xmalloc` when quoting is enabled:
`wcslen(arg) * 4 + 3`.  `xmalloc` is `(TCHAR*)malloc`, so this is a number of
bytes. -/
def normalize_malloc_bytes (arg : List Char) : Nat :=
  arg.length * 4 + 3

/-- The cells of type `TCHAR` that fit in the bytes that `normalize` asks
`malloc` for, when a `TCHAR` takes `sizeof_TCHAR` bytes.  The type comes from
the system header tchar.h; `normalize` hands its `TCHAR` strings to `wcslen`
and `wcscpy`, so it is the wide character type. -/
def normalize_buffer_cells (sizeof_TCHAR : Nat) (arg : List Char) : Nat :=
  normalize_malloc_bytes arg / sizeof_TCHAR

/-- A cell holds a descriptor: a non-null name, a null flag and the value
`LONG_OPT`. -/
def isDescriptor (cell : Option option) : Bool :=
  match cell with
  | some o => o.name.isSome && o.flag.isNone && o.val == LONG_OPT
  | none => false

/-- The invariant of the long option table: the bookkeeping is consistent
(`1 ≤ long_options_nr ≤ long_options_length`, the array has that many
cells), the length is a multiple of `LONG_OPTIONS_INCR`, the cell at
`long_options_nr - 1` is the all-null terminator and every cell before it
holds a descriptor. -/
def LongOpts.inv (st : LongOpts) : Prop :=
  st.wf ∧ st.long_options_length % LONG_OPTIONS_INCR = 0 ∧
  st.long_options.get? (st.long_options_nr - 1) = some (some option.terminator) ∧
  ∀ cell ∈ descriptors st, isDescriptor cell = true

instance (st : LongOpts) : Decidable st.inv := by
  unfold LongOpts.inv
  infer_instance

/-- A call that changes the long option table. -/
inductive TableCall where
  | longopt (name : Option (List Char)) (has_arg : Nat)
  | long_options (options : List Char)
  deriving DecidableEq, Repr

/-- A sequence of calls of `add_longopt` and `add_long_options`, run in
order; the run ends at the first call that does not return. -/
def runCalls : List TableCall → LongOpts → Outcome LongOpts
  | [], st => Outcome.ok st
  | TableCall.longopt name has_arg :: rest, st => runCalls rest (add_longopt st name has_arg)
  | TableCall.long_options options :: rest, st =>
    match add_long_options options st with
    | Outcome.ok st2 => runCalls rest st2
    | Outcome.exit code => Outcome.exit code
    | Outcome.undefined => Outcome.undefined
    | Outcome.out_of_fuel => Outcome.out_of_fuel

/-- The cells that the arity suffix check of `add_long_options` reads or
writes for the token at `tokptr`, as positions relative to the start of the
token: the last cell; when it holds a colon, the cell two before the end;
then the cell that receives the NUL. -/
def suffix_check_cells (mem : List Char) (tokptr : Nat) : List Int :=
  if 0 < tcslen mem tokptr then
    if peek mem (tokptr + tcslen mem tokptr - 1) = ':' then
      if tokptr + tcslen mem tokptr < 2 then
        [(tcslen mem tokptr : Int) - 1, (tcslen mem tokptr : Int) - 2]
      else if peek mem (tokptr + tcslen mem tokptr - 2) = ':' then
        [(tcslen mem tokptr : Int) - 1, (tcslen mem tokptr : Int) - 2,
          (tcslen mem tokptr : Int) - 2]
      else
        [(tcslen mem tokptr : Int) - 1, (tcslen mem tokptr : Int) - 2,
          (tcslen mem tokptr : Int) - 1]
    else [(tcslen mem tokptr : Int) - 1]
  else []

/-- The buffer after the arity suffix check of the token at `tokptr`. -/
def suffix_check_mem (mem : List Char) (tokptr : Nat) : List Char :=
  if 0 < tcslen mem tokptr then
    if peek mem (tokptr + tcslen mem tokptr - 1) = ':' then
      if peek mem (tokptr + tcslen mem tokptr - 2) = ':' then
        mem.set (tokptr + tcslen mem tokptr - 2) NUL
      else
        mem.set (tokptr + tcslen mem tokptr - 1) NUL
    else mem
  else mem

/-- The loop of `add_long_options` ends at the token at `tokptr`: the read
before the buffer is undefined, or the name is empty after the arity suffix
was cut off and `parse_error` is called. -/
def suffix_check_stops (mem : List Char) (tokptr : Nat) : Bool :=
  decide (0 < tcslen mem tokptr) &&
  decide (peek mem (tokptr + tcslen mem tokptr - 1) = ':') &&
  (decide (tokptr + tcslen mem tokptr < 2) ||
    decide (tcslen (suffix_check_mem mem tokptr) tokptr = 0))

/-- The loop of `add_long_options` with the table left out: for every token
in order, its length and the cells that the arity suffix check touches. -/
def add_long_options_cells_loop : Nat → List Char → Option Nat → Nat → List (Nat × List Int)
  | _, _, none, _ => []
  | 0, _, some _, _ => []
  | fuel + 1, mem, some tokptr, save =>
    (tcslen mem tokptr, suffix_check_cells mem tokptr) ::
      (if suffix_check_stops mem tokptr = true then []
       else
        add_long_options_cells_loop fuel
          (tcstok (suffix_check_mem mem tokptr) none save).mem
          (tcstok (suffix_check_mem mem tokptr) none save).tok
          (tcstok (suffix_check_mem mem tokptr) none save).save)

/-- The tokens of a call of `add_long_options` with the cells that the arity
suffix check touches in each. -/
def add_long_options_cells (options : List Char) : List (Nat × List Int) :=
  add_long_options_cells_loop options.length
    (tcstok (options ++ [NUL]) (some 0) 0).mem
    (tcstok (options ++ [NUL]) (some 0) 0).tok
    (tcstok (options ++ [NUL]) (some 0) 0).save

/-! ## wmain -/

/-- Exit code returned for -T. -/
def TEST_EXIT_CODE : Nat := 4

/-- The short option string with which `wmain` scans the options of getopt(1)
itself. -/
def shortopts : List Char :=
  ['+', 'a', 'o', ':', 'l', ':', 'n', ':', 'q', 'Q', 's', ':', 'T', 'u', 'h', 'V']

/-- The function `set_shell`. -/
def set_shell (cfg : Config) (new_shell : List Char) : Outcome Config :=
  if new_shell = ['b', 'a', 's', 'h'] then Outcome.ok { cfg with shell := shell_t.BASH }
  else if new_shell = ['t', 'c', 's', 'h'] then Outcome.ok { cfg with shell := shell_t.TCSH }
  else if new_shell = ['s', 'h'] then Outcome.ok { cfg with shell := shell_t.BASH }
  else if new_shell = ['c', 's', 'h'] then Outcome.ok { cfg with shell := shell_t.TCSH }
  else parse_error (some "unknown shell after -s or --shell argument")

/-- The variables that the option loop of `wmain` changes: the global
switches, the long option table, the locals `optstr` and `name` (`none` is
NULL) and whether `getopt_long_fp` was set to `getopt_long_only`. -/
structure WmainState where
  cfg : Config
  table : LongOpts
  optstr : Option (List Char)
  name : Option (List Char)
  alternative : Bool
  deriving DecidableEq, Repr

/-- The call of `generate_output` that `wmain` ends with: the global switches
and the scanner in force, and the four arguments of the call. -/
structure GenCall where
  cfg : Config
  alternative : Bool
  argv : List (List Char)
  argc : Nat
  optstr : List Char
  longopts : List (Option option)
  deriving DecidableEq, Repr

/-- The body of the `switch` in the option loop of `wmain` for one return of
the scanner on the options of getopt(1) itself.  `Outcome.exit` is the end of
the process with that status (`exit`, or `return` from `wmain`); what is
printed before is not recorded. -/
def wmain_switch (r : ScanResult) (s : WmainState) : Outcome WmainState :=
  if r.opt = 'a'.toNat then Outcome.ok { s with alternative := true }
  else if r.opt = 'h'.toNat then Outcome.exit PARAMETER_EXIT_CODE
  else if r.opt = 'o'.toNat then
    match r.optarg with
    | some arg => Outcome.ok { s with optstr := some arg }
    | none => Outcome.undefined
  else if r.opt = 'l'.toNat then
    match r.optarg with
    | some arg =>
      match add_long_options arg s.table with
      | Outcome.ok table => Outcome.ok { s with table := table }
      | Outcome.exit code => Outcome.exit code
      | Outcome.undefined => Outcome.undefined
      | Outcome.out_of_fuel => Outcome.out_of_fuel
    | none => Outcome.undefined
  else if r.opt = 'n'.toNat then
    match r.optarg with
    | some arg => Outcome.ok { s with name := some arg }
    | none => Outcome.undefined
  else if r.opt = 'q'.toNat then
    Outcome.ok { s with cfg := { s.cfg with quiet_errors := true } }
  else if r.opt = 'Q'.toNat then
    Outcome.ok { s with cfg := { s.cfg with quiet_output := true } }
  else if r.opt = 's'.toNat then
    match r.optarg with
    | some arg =>
      match set_shell s.cfg arg with
      | Outcome.ok cfg => Outcome.ok { s with cfg := cfg }
      | Outcome.exit code => Outcome.exit code
      | Outcome.undefined => Outcome.undefined
      | Outcome.out_of_fuel => Outcome.out_of_fuel
    | none => Outcome.undefined
  else if r.opt = 'T'.toNat then Outcome.exit TEST_EXIT_CODE
  else if r.opt = 'u'.toNat then Outcome.ok { s with cfg := { s.cfg with quote := false } }
  else if r.opt = 'V'.toNat then Outcome.exit EXIT_SUCCESS
  else if r.opt = '?'.toNat ∨ r.opt = ':'.toNat then parse_error none
  else parse_error (some "internal error, contact the author.")

/-- The end of `wmain` on the normal path: `argv[optind - 1]` receives the
name under which errors are reported and `generate_output` is called on
`argv + optind - 1` with `argc - optind + 1` elements. -/
def wmain_call (argv : List (List Char)) (argc optind : Nat) (optstr : List Char)
    (s : WmainState) : Outcome GenCall :=
  if optind = 0 ∨ argv.length ≤ optind - 1 then Outcome.undefined
  else
    match argv.get? 0 with
    | some argv0 =>
      Outcome.ok
        { cfg := s.cfg, alternative := s.alternative,
          argv := (argv.set (optind - 1) (s.name.getD argv0)).drop (optind - 1),
          argc := argc + 1 - optind, optstr := optstr, longopts := s.table.long_options }
    | none => Outcome.undefined

/-- The part of `wmain` after the option loop: when no -o option gave the
short option string it is the parameter `argv[optind]`, and it is an error
when there is none. -/
def wmain_finish (argv : List (List Char)) (argc optind : Nat) (s : WmainState) :
    Outcome GenCall :=
  match s.optstr with
  | some optstr => wmain_call argv argc optind optstr s
  | none =>
    if argc ≤ optind then parse_error (some "missing optstring argument")
    else
      match argv.get? optind with
      | some arg => wmain_call argv argc (optind + 1) arg s
      | none => Outcome.undefined

/-- The option loop of `wmain` over the returns of the scanner on the options
of getopt(1) itself, followed by the end of `wmain`; `optind` is the index
that the scanner leaves at EOF. -/
def wmain_loop (argv : List (List Char)) (argc optind : Nat) :
    List ScanResult → WmainState → Outcome GenCall
  | [], s => wmain_finish argv argc optind s
  | r :: rest, s =>
    match wmain_switch r s with
    | Outcome.ok s2 => wmain_loop argv argc optind rest s2
    | Outcome.exit code => Outcome.exit code
    | Outcome.undefined => Outcome.undefined
    | Outcome.out_of_fuel => Outcome.out_of_fuel

/-- A character of the set "-+" handed to `_tcsspn` by `wmain`. -/
def isDashPlus (c : Char) : Bool :=
  c == '-' || c == '+'

/-- The function `wmain` up to its call of `generate_output`.  `compatible`
tells whether the environment variable GETOPT_COMPATIBLE is set; `results`
and `optind` are the returns of the scanner on the options of getopt(1)
itself and the index it leaves.  `Outcome.ok` is the call of
`generate_output` that `wmain` returns the status of. -/
def wmain (compatible : Bool) (argv : List (List Char)) (argc : Nat)
    (results : List ScanResult) (optind : Nat) : Outcome GenCall :=
  if argc = 1 then
    if compatible = true then Outcome.exit EXIT_SUCCESS
    else parse_error (some "missing optstring argument")
  else
    match argv.get? 0, argv.get? 1 with
    | some argv0, some argv1 =>
      if argv1.headD NUL ≠ '-' ∨ compatible = true then
        Outcome.ok
          { cfg := { Config.initial with quote := false }, alternative := false,
            argv := (argv.set 1 argv0).drop 1, argc := argc - 1,
            optstr := argv1.drop (argv1.takeWhile isDashPlus).length,
            longopts := (init_longopt LongOpts.initial).long_options }
      else
        wmain_loop argv argc optind results
          { cfg := Config.initial, table := init_longopt LongOpts.initial, optstr := none,
            name := none, alternative := false }
    | _, _ => Outcome.undefined

/-! ## The scanner (modelled from the specification) -/

theorem bang_ne_SQ : ¬ ('!' = SQ) := by decide

theorem newline_ne_SQ : ¬ ('\n' = SQ) := by decide

theorem BS_ne_SQ : ¬ (BS = SQ) := by decide

theorem normalize_loop_eq (shell : shell_t) (text buf : List Char) :
    normalize_loop shell text buf = buf ++ (text.map (enc shell)).flatten := by
  induction text generalizing buf with
  | nil => simp [normalize_loop]
  | cons c rest ih =>
    unfold normalize_loop
    by_cases h1 : c = SQ
    · simp [h1, ih, enc]
    · cases shell with
      | BASH => simp [h1, ih, enc]
      | TCSH =>
        by_cases h2 : c = '!'
        · simp [h2, ih, enc, bang_ne_SQ]
        · by_cases h3 : c = '\n'
          · simp [h3, ih, enc, newline_ne_SQ]
          · by_cases h4 : isspace c = true
            · simp [h1, h2, h3, h4, ih, enc]
            · simp [h1, h2, h3, h4, ih, enc]

theorem wcscpy_eq (src buf : List Char) : wcscpy src buf = buf ++ src := by
  induction src generalizing buf with
  | nil => simp [wcscpy]
  | cons c rest ih => simp [wcscpy, ih]

theorem shellWordsAux_quoted_bash (text w : List Char) :
    shellWordsAux ((text.map (enc shell_t.BASH)).flatten ++ [SQ]) QState.quoted (some w) []
      = some [w ++ text] := by
  induction text generalizing w with
  | nil => simp [shellWordsAux]
  | cons c rest ih =>
    by_cases h1 : c = SQ
    · simp [h1, enc, shellWordsAux, ih, BS_ne_SQ]
    · simp [h1, enc, shellWordsAux, ih]

/-- C1: under the bash dialect with quoting enabled, shell word splitting and
quote removal applied to `normalize text` gives exactly one word, the text
itself, for every text (single quotes included). -/
theorem normalize_bash_roundtrip (cfg : Config) (text : List Char)
    (hq : cfg.quote = true) (hs : cfg.shell = shell_t.BASH) :
    shellWords (normalize cfg text) = some [text] := by
  unfold shellWords normalize
  rw [normalize_loop_eq, hs]
  simp only [hq, Bool.true_eq_false, if_false, List.append_assoc, List.singleton_append]
  have h := shellWordsAux_quoted_bash text []
  simp only [List.nil_append] at h
  simp [shellWordsAux, h]

theorem normalize_bash_roundtrip_witness :
    Config.initial.quote = true ∧ Config.initial.shell = shell_t.BASH ∧
    shellWords (normalize Config.initial ['i', 't', SQ, 's']) = some [['i', 't', SQ, 's']] :=
  ⟨rfl, rfl, normalize_bash_roundtrip Config.initial ['i', 't', SQ, 's'] rfl rfl⟩

theorem enc_bash_plain (text : List Char) (h : SQ ∉ text) :
    (text.map (enc shell_t.BASH)).flatten = text := by
  induction text with
  | nil => rfl
  | cons c rest ih =>
    have hc : ¬ (c = SQ) := fun hh => h (by simp [hh])
    have hr : SQ ∉ rest := fun hh => h (by simp [hh])
    simp [enc, hc, ih hr]

/-- C2: with quoting enabled `normalize text` is the reference form: a single
quote, the per-character encodings of the text in order, a single quote; in
particular, under bash a text without single quotes comes back between one
pair of single quotes, unchanged. -/
theorem normalize_eq_quoted (cfg : Config) (text : List Char) (hq : cfg.quote = true) :
    normalize cfg text = [SQ] ++ (text.map (enc cfg.shell)).flatten ++ [SQ] ∧
    (cfg.shell = shell_t.BASH → SQ ∉ text → normalize cfg text = [SQ] ++ text ++ [SQ]) := by
  have h : normalize cfg text = [SQ] ++ (text.map (enc cfg.shell)).flatten ++ [SQ] := by
    unfold normalize
    rw [normalize_loop_eq]
    simp [hq]
  refine ⟨h, ?_⟩
  intro hs ht
  rw [h, hs, enc_bash_plain text ht]

theorem normalize_eq_quoted_witness :
    normalize { Config.initial with shell := shell_t.TCSH } ['a', ' ', '!', '\n', SQ]
      = [SQ] ++ ['a', SQ, BS, ' ', SQ, SQ, BS, '!', SQ, BS, 'n', SQ, BS, SQ, SQ] ++ [SQ] :=
  (normalize_eq_quoted { Config.initial with shell := shell_t.TCSH }
    ['a', ' ', '!', '\n', SQ] rfl).1

theorem normalize_unquoted_aux (cfg : Config) (x : List Char) (hq : cfg.quote = false) :
    normalize cfg x = x := by
  unfold normalize
  rw [if_pos hq, wcscpy_eq]
  rfl

/-- C3: with quoting disabled `normalize` returns its argument unchanged, for
either shell dialect. -/
theorem normalize_unquoted (cfg : Config) (x : List Char) (hq : cfg.quote = false) :
    normalize cfg x = x := by
  unfold normalize
  rw [if_pos hq, wcscpy_eq]
  rfl

theorem normalize_unquoted_witness :
    ({ Config.initial with quote := false }).quote = false ∧
    normalize { Config.initial with quote := false } ['i', 't', SQ, 's'] = ['i', 't', SQ, 's'] :=
  ⟨rfl, normalize_unquoted _ _ rfl⟩

/-! ## Buffer lemmas -/

theorem peek_at (a b : List Char) (c : Char) (p : Nat) (hp : a.length = p) :
    peek (a ++ c :: b) p = c := by
  subst hp
  unfold peek
  rw [List.getD_append_right _ _ _ _ (Nat.le_refl _)]
  simp

theorem set_at (a b : List Char) (c d : Char) (p : Nat) (hp : a.length = p) :
    (a ++ c :: b).set p d = a ++ d :: b := by
  subst hp
  simp

theorem takeWhile_stop (q : Char → Bool) (t b : List Char) (x : Char)
    (ht : ∀ c ∈ t, q c = true) (hx : q x = false) :
    (t ++ x :: b).takeWhile q = t := by
  rw [List.takeWhile_append_of_pos ht]
  simp [hx]

theorem cstr_at (a t b : List Char) (p : Nat) (hp : a.length = p)
    (ht : ∀ c ∈ t, c ≠ NUL) : cstr (a ++ (t ++ NUL :: b)) p = t := by
  subst hp
  unfold cstr
  rw [List.drop_left]
  apply takeWhile_stop
  · intro c hc
    simpa using ht c hc
  · simp

theorem tcsspn_at (a ds b : List Char) (x : Char) (p : Nat) (hp : a.length = p)
    (hds : ∀ c ∈ ds, isDelim c = true) (hx : isDelim x = false) :
    tcsspn (a ++ (ds ++ x :: b)) p = ds.length := by
  subst hp
  unfold tcsspn
  rw [List.drop_left, takeWhile_stop isDelim ds b x hds hx]

theorem tcscspn_at (a t b : List Char) (x : Char) (p : Nat) (hp : a.length = p)
    (ht : ∀ c ∈ t, c ≠ NUL ∧ isDelim c = false) (hx : x = NUL ∨ isDelim x = true) :
    tcscspn (a ++ (t ++ x :: b)) p = t.length := by
  subst hp
  unfold tcscspn
  rw [List.drop_left, takeWhile_stop _ t b x]
  · intro c hc
    have := ht c hc
    simp [this.1, this.2]
  · rcases hx with h | h
    · simp [h]
    · simp [h]

theorem isDelim_NUL : isDelim NUL = false := by decide

theorem isDelim_colon : isDelim ':' = false := by decide

theorem colon_ne_NUL : ¬ (':' = NUL) := by decide

/-- The effect of `_tcstok` when only delimiters are left before the NUL. -/
theorem tcstok_none (a ds b : List Char) (p : Nat) (hp : a.length = p)
    (hds : ∀ c ∈ ds, isDelim c = true) :
    tcstok (a ++ (ds ++ NUL :: b)) none p
      = { tok := none, mem := a ++ (ds ++ NUL :: b), save := p + ds.length } := by
  unfold tcstok
  simp only [Option.getD_none]
  rw [tcsspn_at a ds b NUL p hp hds isDelim_NUL]
  have h : peek (a ++ (ds ++ NUL :: b)) (p + ds.length) = NUL := by
    rw [← List.append_assoc]
    exact peek_at _ _ _ _ (by simp [hp])
  simp [h]

/-- The effect of `_tcstok` on the last token of the string. -/
theorem tcstok_last (a ds t b : List Char) (p : Nat) (hp : a.length = p)
    (hds : ∀ c ∈ ds, isDelim c = true)
    (ht : ∀ c ∈ t, c ≠ NUL ∧ isDelim c = false) (hne : t ≠ []) :
    tcstok (a ++ (ds ++ (t ++ NUL :: b))) none p
      = { tok := some (p + ds.length), mem := a ++ (ds ++ (t ++ NUL :: b)),
          save := p + ds.length + t.length } := by
  obtain ⟨x, t1, rfl⟩ := List.exists_cons_of_ne_nil hne
  have hx := ht x (by simp)
  unfold tcstok
  simp only [Option.getD_none]
  have h1 : tcsspn (a ++ (ds ++ (x :: t1 ++ NUL :: b))) p = ds.length :=
    tcsspn_at a ds (t1 ++ NUL :: b) x p hp hds hx.2
  rw [h1]
  have h2 : peek (a ++ (ds ++ (x :: t1 ++ NUL :: b))) (p + ds.length) = x := by
    rw [← List.append_assoc]
    exact peek_at _ _ _ _ (by simp [hp])
  have h3 : tcscspn (a ++ (ds ++ (x :: t1 ++ NUL :: b))) (p + ds.length) = (x :: t1).length := by
    rw [← List.append_assoc]
    exact tcscspn_at (a ++ ds) (x :: t1) b NUL _ (by simp [hp]) ht (Or.inl rfl)
  have h4 : peek (a ++ (ds ++ (x :: t1 ++ NUL :: b))) (p + ds.length + (x :: t1).length) = NUL := by
    rw [← List.append_assoc, ← List.append_assoc]
    exact peek_at _ _ _ _ (by simp [hp]; omega)
  rw [h2, h3, h4]
  simp [hx.1]

/-- The effect of `_tcstok` on a token that is followed by a delimiter. -/
theorem tcstok_mid (a ds t b : List Char) (d : Char) (p : Nat) (hp : a.length = p)
    (hds : ∀ c ∈ ds, isDelim c = true)
    (ht : ∀ c ∈ t, c ≠ NUL ∧ isDelim c = false) (hne : t ≠ []) (hd : isDelim d = true) :
    tcstok (a ++ (ds ++ (t ++ d :: b))) none p
      = { tok := some (p + ds.length), mem := a ++ (ds ++ (t ++ NUL :: b)),
          save := p + ds.length + t.length + 1 } := by
  obtain ⟨x, t1, rfl⟩ := List.exists_cons_of_ne_nil hne
  have hx := ht x (by simp)
  have hdn : ¬ (d = NUL) := by
    intro h
    rw [h, isDelim_NUL] at hd
    exact Bool.noConfusion hd
  unfold tcstok
  simp only [Option.getD_none]
  have h1 : tcsspn (a ++ (ds ++ (x :: t1 ++ d :: b))) p = ds.length :=
    tcsspn_at a ds (t1 ++ d :: b) x p hp hds hx.2
  rw [h1]
  have h2 : peek (a ++ (ds ++ (x :: t1 ++ d :: b))) (p + ds.length) = x := by
    rw [← List.append_assoc]
    exact peek_at _ _ _ _ (by simp [hp])
  have h3 : tcscspn (a ++ (ds ++ (x :: t1 ++ d :: b))) (p + ds.length) = (x :: t1).length := by
    rw [← List.append_assoc]
    exact tcscspn_at (a ++ ds) (x :: t1) b d _ (by simp [hp]) ht (Or.inr hd)
  have h4 : peek (a ++ (ds ++ (x :: t1 ++ d :: b))) (p + ds.length + (x :: t1).length) = d := by
    rw [← List.append_assoc, ← List.append_assoc]
    exact peek_at _ _ _ _ (by simp [hp]; omega)
  have h5 : (a ++ (ds ++ (x :: t1 ++ d :: b))).set (p + ds.length + (x :: t1).length) NUL
      = a ++ (ds ++ (x :: t1 ++ NUL :: b)) := by
    rw [← List.append_assoc, ← List.append_assoc, set_at _ _ _ _ _ (by simp [hp]; omega)]
    simp
  rw [h2, h3, h4, h5]
  simp [hx.1, hdn]

/-! ## Shapes of a token -/

theorem suffix_one (u : List Char) (y : Char) : [':'] <:+ u ++ [y] ↔ y = ':' := by
  rw [List.suffix_iff_eq_drop]
  simp [eq_comm]

theorem suffix_two (u : List Char) (x y : Char) :
    [':', ':'] <:+ u ++ [x, y] ↔ x = ':' ∧ y = ':' := by
  rw [List.suffix_iff_eq_drop]
  simp [eq_comm]

theorem not_suffix_two_of_last (u : List Char) (y : Char) (hy : ¬ (y = ':')) :
    ¬ ([':', ':'] <:+ u ++ [y]) := by
  intro h
  have h2 : [':'] <:+ u ++ [y] := List.IsSuffix.trans ⟨[':'], rfl⟩ h
  exact hy ((suffix_one u y).1 h2)

theorem not_suffix_two_single : ¬ ([':', ':'] <:+ [':']) := by decide

theorem shape_plain (u : List Char) (y : Char) (hy : ¬ (y = ':')) :
    tokenName (u ++ [y]) = u ++ [y] ∧ tokenArity (u ++ [y]) = no_argument ∧
    emptyName (u ++ [y]) = false ∧ stripped (u ++ [y]) = u ++ [y] := by
  have h1 := not_suffix_two_of_last u y hy
  have h2 : ¬ ([':'] <:+ u ++ [y]) := fun h => hy ((suffix_one u y).1 h)
  refine ⟨by simp [tokenName, h1, h2], by simp [tokenArity, h1, h2], ?_,
    by simp [stripped, h1, h2]⟩
  cases u with
  | nil => simp [emptyName, hy]
  | cons a u1 =>
    cases u1 with
    | nil => simp [emptyName, hy]
    | cons b u2 => simp [emptyName]

theorem shape_required (u : List Char) (x : Char) (hx : ¬ (x = ':')) :
    tokenName (u ++ [x, ':']) = u ++ [x] ∧ tokenArity (u ++ [x, ':']) = required_argument ∧
    emptyName (u ++ [x, ':']) = false ∧ stripped (u ++ [x, ':']) = u ++ [x, NUL] := by
  have h1 : ¬ ([':', ':'] <:+ u ++ [x, ':']) := fun h => hx ((suffix_two u x ':').1 h).1
  have h2 : [':'] <:+ u ++ [x, ':'] := ⟨u ++ [x], by simp⟩
  have h3 : (u ++ [x, ':']).dropLast = u ++ [x] := by
    have : u ++ [x, ':'] = (u ++ [x]) ++ [':'] := by simp
    rw [this, List.dropLast_concat]
  refine ⟨by simp [tokenName, h1, h2, h3], by simp [tokenArity, h1, h2], ?_,
    by simp [stripped, h1, h2, h3]⟩
  cases u with
  | nil => simp [emptyName, hx]
  | cons a u1 => cases u1 <;> simp [emptyName]

theorem shape_optional (u : List Char) :
    tokenName (u ++ [':', ':']) = u ∧ tokenArity (u ++ [':', ':']) = optional_argument ∧
    (emptyName (u ++ [':', ':']) = true ↔ u = []) ∧
    stripped (u ++ [':', ':']) = u ++ [NUL, ':'] := by
  have h1 : [':', ':'] <:+ u ++ [':', ':'] := ⟨u, rfl⟩
  have h3 : (u ++ [':', ':']).dropLast.dropLast = u := by
    have : u ++ [':', ':'] = (u ++ [':']) ++ [':'] := by simp
    rw [this, List.dropLast_concat, List.dropLast_concat]
  refine ⟨by simp [tokenName, h1, h3], by simp [tokenArity, h1], ?_, by simp [stripped, h1, h3]⟩
  cases u with
  | nil => simp [emptyName]
  | cons a u1 => cases u1 <;> simp [emptyName]

theorem shape_colon :
    tokenName [':'] = [] ∧ tokenArity [':'] = required_argument ∧ emptyName [':'] = true := by
  decide

theorem stripped_length (t : List Char) : (stripped t).length = t.length := by
  rcases List.eq_nil_or_concat t with rfl | ⟨u, y, rfl⟩
  · decide
  · rw [List.concat_eq_append]
    by_cases hy : y = ':'
    · subst hy
      rcases List.eq_nil_or_concat u with rfl | ⟨v, x, rfl⟩
      · decide
      · rw [List.concat_eq_append]
        have e : v ++ [x] ++ [':'] = v ++ [x, ':'] := by simp
        rw [e]
        by_cases hx : x = ':'
        · subst hx
          rw [(shape_optional v).2.2.2]
          simp
        · rw [(shape_required v x hx).2.2.2]
          simp
    · rw [(shape_plain u y hy).2.2.2]

/-! ## One round of the loop of add_long_options -/

theorem tcslen_at (a t b : List Char) (p : Nat) (hp : a.length = p)
    (ht : ∀ c ∈ t, c ≠ NUL) : tcslen (a ++ (t ++ NUL :: b)) p = t.length := by
  unfold tcslen
  rw [cstr_at a t b p hp ht]

theorem loop_body_plain (a u b : List Char) (y : Char) (fuel save : Nat) (st : LongOpts)
    (ht : ∀ c ∈ u ++ [y], c ≠ NUL) (hy : ¬ (y = ':')) :
    add_long_options_loop (fuel + 1) (a ++ ((u ++ [y]) ++ NUL :: b)) (some a.length) save st =
      add_long_options_loop fuel
        (tcstok (a ++ ((u ++ [y]) ++ NUL :: b)) none save).mem
        (tcstok (a ++ ((u ++ [y]) ++ NUL :: b)) none save).tok
        (tcstok (a ++ ((u ++ [y]) ++ NUL :: b)) none save).save
        (add_longopt st (some (u ++ [y])) no_argument) := by
  have hlen := tcslen_at a (u ++ [y]) b a.length rfl ht
  have hcs := cstr_at a (u ++ [y]) b a.length rfl ht
  have hpk : peek (a ++ ((u ++ [y]) ++ NUL :: b)) (a.length + (u ++ [y]).length - 1) = y := by
    have hm : a ++ ((u ++ [y]) ++ NUL :: b) = (a ++ u) ++ y :: NUL :: b := by simp
    rw [hm]
    exact peek_at _ _ _ _
      (by simp only [List.length_append, List.length_cons, List.length_nil]; omega)
  rw [add_long_options_loop]
  simp only [hlen, hpk, hcs]
  simp [hy]

theorem loop_body_required (a u b : List Char) (x : Char) (fuel save : Nat) (st : LongOpts)
    (ht : ∀ c ∈ u ++ [x, ':'], c ≠ NUL) (hx : ¬ (x = ':')) :
    add_long_options_loop (fuel + 1) (a ++ ((u ++ [x, ':']) ++ NUL :: b)) (some a.length) save st =
      add_long_options_loop fuel
        (tcstok (a ++ ((u ++ [x, NUL]) ++ NUL :: b)) none save).mem
        (tcstok (a ++ ((u ++ [x, NUL]) ++ NUL :: b)) none save).tok
        (tcstok (a ++ ((u ++ [x, NUL]) ++ NUL :: b)) none save).save
        (add_longopt st (some (u ++ [x])) required_argument) := by
  have hlen := tcslen_at a (u ++ [x, ':']) b a.length rfl ht
  have hpk : peek (a ++ ((u ++ [x, ':']) ++ NUL :: b)) (a.length + (u ++ [x, ':']).length - 1)
      = ':' := by
    have hm : a ++ ((u ++ [x, ':']) ++ NUL :: b) = (a ++ (u ++ [x])) ++ ':' :: NUL :: b := by simp
    rw [hm]
    exact peek_at _ _ _ _
      (by simp only [List.length_append, List.length_cons, List.length_nil]; omega)
  have hpk2 : peek (a ++ ((u ++ [x, ':']) ++ NUL :: b)) (a.length + (u ++ [x, ':']).length - 2)
      = x := by
    have hm : a ++ ((u ++ [x, ':']) ++ NUL :: b) = (a ++ u) ++ x :: ':' :: NUL :: b := by simp
    rw [hm]
    exact peek_at _ _ _ _
      (by simp only [List.length_append, List.length_cons, List.length_nil]; omega)
  have hset : (a ++ ((u ++ [x, ':']) ++ NUL :: b)).set (a.length + (u ++ [x, ':']).length - 1) NUL
      = a ++ ((u ++ [x, NUL]) ++ NUL :: b) := by
    have hm : a ++ ((u ++ [x, ':']) ++ NUL :: b) = (a ++ (u ++ [x])) ++ ':' :: NUL :: b := by simp
    rw [hm, set_at _ _ _ _ _
      (by simp only [List.length_append, List.length_cons, List.length_nil]; omega)]
    simp
  have hux : ∀ c ∈ u ++ [x], c ≠ NUL := by
    intro c hc
    apply ht
    simp at hc ⊢
    rcases hc with h | h
    · exact Or.inl h
    · exact Or.inr (Or.inl h)
  have hm2 : a ++ ((u ++ [x, NUL]) ++ NUL :: b) = a ++ ((u ++ [x]) ++ NUL :: (NUL :: b)) := by simp
  have hcs : cstr (a ++ ((u ++ [x, NUL]) ++ NUL :: b)) a.length = u ++ [x] := by
    rw [hm2]
    exact cstr_at a (u ++ [x]) _ a.length rfl hux
  have hlen2 : tcslen (a ++ ((u ++ [x, NUL]) ++ NUL :: b)) a.length = (u ++ [x]).length := by
    unfold tcslen
    rw [hcs]
  have hge : ¬ (a.length + (u ++ [x, ':']).length < 2) := by
    simp only [List.length_append, List.length_cons, List.length_nil]; omega
  rw [add_long_options_loop]
  simp only [hlen, hpk, hpk2, hset]
  simp only [hx, if_false, hge, hlen2, hcs]
  simp

theorem loop_body_optional (a u b : List Char) (fuel save : Nat) (st : LongOpts)
    (ht : ∀ c ∈ u ++ [':', ':'], c ≠ NUL) :
    add_long_options_loop (fuel + 1) (a ++ ((u ++ [':', ':']) ++ NUL :: b)) (some a.length)
        save st =
      if u = [] then Outcome.exit PARAMETER_EXIT_CODE
      else
        add_long_options_loop fuel
          (tcstok (a ++ ((u ++ [NUL, ':']) ++ NUL :: b)) none save).mem
          (tcstok (a ++ ((u ++ [NUL, ':']) ++ NUL :: b)) none save).tok
          (tcstok (a ++ ((u ++ [NUL, ':']) ++ NUL :: b)) none save).save
          (add_longopt st (some u) optional_argument) := by
  have hlen := tcslen_at a (u ++ [':', ':']) b a.length rfl ht
  have hpk : peek (a ++ ((u ++ [':', ':']) ++ NUL :: b)) (a.length + (u ++ [':', ':']).length - 1)
      = ':' := by
    have hm : a ++ ((u ++ [':', ':']) ++ NUL :: b) = (a ++ (u ++ [':'])) ++ ':' :: NUL :: b := by
      simp
    rw [hm]
    exact peek_at _ _ _ _
      (by simp only [List.length_append, List.length_cons, List.length_nil]; omega)
  have hpk2 : peek (a ++ ((u ++ [':', ':']) ++ NUL :: b)) (a.length + (u ++ [':', ':']).length - 2)
      = ':' := by
    have hm : a ++ ((u ++ [':', ':']) ++ NUL :: b) = (a ++ u) ++ ':' :: ':' :: NUL :: b := by simp
    rw [hm]
    exact peek_at _ _ _ _
      (by simp only [List.length_append, List.length_cons, List.length_nil]; omega)
  have hset : (a ++ ((u ++ [':', ':']) ++ NUL :: b)).set
      (a.length + (u ++ [':', ':']).length - 2) NUL = a ++ ((u ++ [NUL, ':']) ++ NUL :: b) := by
    have hm : a ++ ((u ++ [':', ':']) ++ NUL :: b) = (a ++ u) ++ ':' :: ':' :: NUL :: b := by simp
    rw [hm, set_at _ _ _ _ _
      (by simp only [List.length_append, List.length_cons, List.length_nil]; omega)]
    simp
  have hu : ∀ c ∈ u, c ≠ NUL := fun c hc => ht c (by simp [hc])
  have hm2 : a ++ ((u ++ [NUL, ':']) ++ NUL :: b) = a ++ (u ++ NUL :: (':' :: NUL :: b)) := by simp
  have hcs : cstr (a ++ ((u ++ [NUL, ':']) ++ NUL :: b)) a.length = u := by
    rw [hm2]
    exact cstr_at a u _ a.length rfl hu
  have hlen2 : tcslen (a ++ ((u ++ [NUL, ':']) ++ NUL :: b)) a.length = u.length := by
    unfold tcslen
    rw [hcs]
  have hge : ¬ (a.length + (u ++ [':', ':']).length < 2) := by
    simp only [List.length_append, List.length_cons, List.length_nil]; omega
  rw [add_long_options_loop]
  simp only [hlen, hpk, hpk2, hset]
  simp only [if_true, hge, if_false, hlen2, hcs]
  by_cases h0 : u = []
  · simp [h0, parse_error]
  · simp [h0]

theorem loop_body_colon_start (b : List Char) (fuel save : Nat) (st : LongOpts) :
    add_long_options_loop (fuel + 1) (':' :: NUL :: b) (some 0) save st
      = Outcome.undefined := by
  have hlen : tcslen (':' :: NUL :: b) 0 = 1 :=
    tcslen_at [] [':'] b 0 rfl (by decide)
  have hpk : peek (':' :: NUL :: b) (0 + 1 - 1) = ':' := rfl
  rw [add_long_options_loop]
  simp only [hlen, hpk]
  simp

theorem loop_body_colon_later (a0 b : List Char) (z : Char) (fuel save : Nat) (st : LongOpts)
    (hz : ¬ (z = ':')) :
    add_long_options_loop (fuel + 1) ((a0 ++ [z]) ++ ([':'] ++ NUL :: b))
        (some (a0 ++ [z]).length) save st
      = Outcome.exit PARAMETER_EXIT_CODE := by
  have hlen : tcslen ((a0 ++ [z]) ++ ([':'] ++ NUL :: b)) (a0 ++ [z]).length = 1 :=
    tcslen_at (a0 ++ [z]) [':'] b _ rfl (by decide)
  have hpk : peek ((a0 ++ [z]) ++ ([':'] ++ NUL :: b)) ((a0 ++ [z]).length + 1 - 1) = ':' := by
    have hm : (a0 ++ [z]) ++ ([':'] ++ NUL :: b) = (a0 ++ [z]) ++ ':' :: NUL :: b := by simp
    rw [hm]
    exact peek_at _ _ _ _
      (by simp only [List.length_append, List.length_cons, List.length_nil]; omega)
  have hpk2 : peek ((a0 ++ [z]) ++ ([':'] ++ NUL :: b)) ((a0 ++ [z]).length + 1 - 2) = z := by
    have hm : (a0 ++ [z]) ++ ([':'] ++ NUL :: b) = a0 ++ z :: ':' :: NUL :: b := by simp
    rw [hm]
    exact peek_at _ _ _ _
      (by simp only [List.length_append, List.length_cons, List.length_nil]; omega)
  have hset : ((a0 ++ [z]) ++ ([':'] ++ NUL :: b)).set ((a0 ++ [z]).length + 1 - 1) NUL
      = (a0 ++ [z]) ++ ([] ++ NUL :: (NUL :: b)) := by
    have hm : (a0 ++ [z]) ++ ([':'] ++ NUL :: b) = (a0 ++ [z]) ++ ':' :: NUL :: b := by simp
    rw [hm, set_at _ _ _ _ _
      (by simp only [List.length_append, List.length_cons, List.length_nil]; omega)]
    simp
  have hlen2 : tcslen ((a0 ++ [z]) ++ ([] ++ NUL :: (NUL :: b))) (a0 ++ [z]).length = 0 :=
    tcslen_at (a0 ++ [z]) [] _ _ rfl (by simp)
  have hge : ¬ ((a0 ++ [z]).length + 1 < 2) := by
    simp only [List.length_append, List.length_cons, List.length_nil]; omega
  rw [add_long_options_loop]
  simp only [hlen, hpk, hpk2, hset]
  simp only [hz, if_false, hge, hlen2]
  simp [parse_error]

theorem loop_none (fuel : Nat) (mem : List Char) (save : Nat) (st : LongOpts) :
    add_long_options_loop fuel mem none save st = Outcome.ok st := by
  cases fuel <;> simp [add_long_options_loop]

theorem concat_ne_colon (u : List Char) (y : Char) (hy : ¬ (y = ':')) : ¬ (u ++ [y] = [':']) := by
  intro h
  have h2 := congrArg List.getLast? h
  simp at h2
  exact hy h2

theorem two_ne_colon (v : List Char) (x y : Char) : ¬ (v ++ [x, y] = [':']) := by
  intro h
  have h2 := congrArg List.length h
  simp at h2

/-- One round of the loop on a token `t` that sits after the cells `a`. -/
theorem loop_body (a t b : List Char) (fuel save : Nat) (st : LongOpts)
    (hne : t ≠ []) (ht : ∀ c ∈ t, c ≠ NUL) (ha : ∀ z, a.getLast? = some z → z ≠ ':') :
    add_long_options_loop (fuel + 1) (a ++ (t ++ NUL :: b)) (some a.length) save st =
      if a = [] ∧ t = [':'] then Outcome.undefined
      else if emptyName t = true then Outcome.exit PARAMETER_EXIT_CODE
      else
        add_long_options_loop fuel
          (tcstok (a ++ (stripped t ++ NUL :: b)) none save).mem
          (tcstok (a ++ (stripped t ++ NUL :: b)) none save).tok
          (tcstok (a ++ (stripped t ++ NUL :: b)) none save).save
          (add_longopt st (some (tokenName t)) (tokenArity t)) := by
  rcases List.eq_nil_or_concat t with rfl | ⟨u, y, rfl⟩
  · exact absurd rfl hne
  · rw [List.concat_eq_append] at ht ⊢
    by_cases hy : y = ':'
    · subst hy
      rcases List.eq_nil_or_concat u with rfl | ⟨v, x, rfl⟩
      · rcases List.eq_nil_or_concat a with rfl | ⟨a0, z, rfl⟩
        · have h := loop_body_colon_start b fuel save st
          simpa using h
        · rw [List.concat_eq_append]
          have hz : ¬ (z = ':') := ha z (by simp)
          have h := loop_body_colon_later a0 b z fuel save st hz
          have hnil : ¬ (a0 ++ [z] = []) := by simp
          simp only [List.nil_append] at h ⊢
          rw [h]
          simp [hnil, shape_colon.2.2]
      · rw [List.concat_eq_append] at ht ⊢
        have e : v ++ [x] ++ [':'] = v ++ [x, ':'] := by simp
        rw [e] at ht ⊢
        have hnc := two_ne_colon v x ':'
        by_cases hx : x = ':'
        · subst hx
          have h := loop_body_optional a v b fuel save st ht
          obtain ⟨h1, h2, h3, h4⟩ := shape_optional v
          rw [h, h1, h2, h4]
          by_cases hv : v = []
          · have he : emptyName (v ++ [':', ':']) = true := h3.2 hv
            rw [if_pos hv, if_neg (fun hh => hnc hh.2), if_pos he]
          · have he : ¬ (emptyName (v ++ [':', ':']) = true) := fun hh => hv (h3.1 hh)
            simp [hnc, he, hv]
        · have h := loop_body_required a v b x fuel save st ht hx
          obtain ⟨h1, h2, h3, h4⟩ := shape_required v x hx
          rw [h, h1, h2, h4]
          simp [hnc, h3]
    · have h := loop_body_plain a u b y fuel save st ht hy
      obtain ⟨h1, h2, h3, h4⟩ := shape_plain u y hy
      have hnc := concat_ne_colon u y hy
      rw [h, h1, h2, h4]
      simp [hnc, h3]

/-! ## Tokens of a string -/

theorem tokensAux_delims (ds x : List Char) (hds : ∀ c ∈ ds, isDelim c = true) :
    tokensAux (ds ++ x) [] = tokensAux x [] := by
  induction ds with
  | nil => rfl
  | cons d ds ih =>
    have hd : isDelim d = true := hds d (by simp)
    have ih2 := ih (fun c hc => hds c (by simp [hc]))
    simp [tokensAux, hd, ih2]

theorem tokensAux_run (t x cur : List Char) (ht : ∀ c ∈ t, isDelim c = false) :
    tokensAux (t ++ x) cur = tokensAux x (cur ++ t) := by
  induction t generalizing cur with
  | nil => simp
  | cons c t ih =>
    have hc : isDelim c = false := ht c (by simp)
    have ih2 := ih (cur ++ [c]) (fun c hc => ht c (by simp [hc]))
    simp [tokensAux, hc, ih2]

theorem tokens_delims (ds : List Char) (hds : ∀ c ∈ ds, isDelim c = true) : tokens ds = [] := by
  have h := tokensAux_delims ds [] hds
  simp only [List.append_nil] at h
  unfold tokens
  rw [h]
  rfl

theorem tokens_last (ds t : List Char) (hds : ∀ c ∈ ds, isDelim c = true)
    (ht : ∀ c ∈ t, isDelim c = false) (hne : t ≠ []) : tokens (ds ++ t) = [t] := by
  unfold tokens
  rw [tokensAux_delims ds t hds]
  have h := tokensAux_run t [] [] ht
  simp only [List.append_nil, List.nil_append] at h
  rw [h]
  simp [tokensAux, hne]

theorem tokens_mid (ds t rest : List Char) (d : Char) (hds : ∀ c ∈ ds, isDelim c = true)
    (ht : ∀ c ∈ t, isDelim c = false) (hne : t ≠ []) (hd : isDelim d = true) :
    tokens (ds ++ (t ++ d :: rest)) = t :: tokens rest := by
  unfold tokens
  rw [tokensAux_delims ds _ hds, tokensAux_run t _ [] ht]
  simp [tokensAux, hd, hne]

theorem colonFirst_delims (ds : List Char) (hds : ∀ c ∈ ds, isDelim c = true) :
    colonFirst ds = false := by
  cases ds with
  | nil => rfl
  | cons d ds1 =>
    have hd : isDelim d = true := hds d (by simp)
    have hdc : ¬ (d = ':') := by
      intro h
      rw [h, isDelim_colon] at hd
      exact Bool.noConfusion hd
    cases ds1 <;> simp [colonFirst, hdc]

/-- The string starts with the token ":" exactly when it has no leading
delimiter and its first token is ":". -/
theorem colonFirst_iff (ds t tail : List Char) (hds : ∀ c ∈ ds, isDelim c = true)
    (ht : ∀ c ∈ t, isDelim c = false) (hne : t ≠ [])
    (htail : tail = [] ∨ ∃ d rest, isDelim d = true ∧ tail = d :: rest) :
    colonFirst (ds ++ (t ++ tail)) = true ↔ ds = [] ∧ t = [':'] := by
  cases ds with
  | cons d ds1 =>
    have hd : isDelim d = true := hds d (by simp)
    have hdc : ¬ (d = ':') := by
      intro h
      rw [h, isDelim_colon] at hd
      exact Bool.noConfusion hd
    have hx : colonFirst (d :: (ds1 ++ (t ++ tail))) = false := by
      cases h : ds1 ++ (t ++ tail) <;> simp [colonFirst, hdc]
    rw [List.cons_append, hx]
    simp
  | nil =>
    obtain ⟨x, t1, rfl⟩ := List.exists_cons_of_ne_nil hne
    cases t1 with
    | nil =>
      rcases htail with rfl | ⟨d, rest, hd, rfl⟩
      · simp [colonFirst]
      · simp [colonFirst, hd]
    | cons y t2 =>
      have hy : isDelim y = false := ht y (by simp)
      simp [colonFirst, hy]

/-- A string without NUL is a run of delimiters, followed by nothing or by a
token that ends the string or is followed by a delimiter. -/
theorem decompose (r : List Char) (hr : ∀ c ∈ r, c ≠ NUL) :
    ∃ ds, (∀ c ∈ ds, isDelim c = true) ∧
      (r = ds ∨ ∃ t, t ≠ [] ∧ (∀ c ∈ t, c ≠ NUL ∧ isDelim c = false) ∧
        (r = ds ++ t ∨ ∃ d rest, isDelim d = true ∧ r = ds ++ (t ++ d :: rest))) := by
  refine ⟨r.takeWhile isDelim, fun c hc => List.mem_takeWhile_imp hc, ?_⟩
  have hsplit : r = r.takeWhile isDelim ++ r.dropWhile isDelim :=
    (List.takeWhile_append_dropWhile isDelim r).symm
  cases hrest : r.dropWhile isDelim with
  | nil =>
    left
    rw [hrest, List.append_nil] at hsplit
    exact hsplit
  | cons x rest1 =>
    right
    have hxd : isDelim x = false := by
      have h := List.head_dropWhile_not isDelim r (by rw [hrest]; simp)
      simpa [hrest] using h
    have hmem : ∀ c ∈ x :: rest1, c ∈ r := by
      intro c hc
      rw [hsplit, hrest]
      exact List.mem_append_right _ hc
    let nd : Char → Bool := fun c => !isDelim c
    refine ⟨(x :: rest1).takeWhile nd, ?_, ?_, ?_⟩
    · simp [nd, List.takeWhile_cons, hxd]
    · intro c hc
      have h1 : nd c = true := List.mem_takeWhile_imp hc
      have h2 : c ∈ x :: rest1 := (List.takeWhile_sublist nd).subset hc
      exact ⟨hr c (hmem c h2), by simpa [nd] using h1⟩
    · have hsplit2 : x :: rest1 = (x :: rest1).takeWhile nd ++ (x :: rest1).dropWhile nd :=
        (List.takeWhile_append_dropWhile nd (x :: rest1)).symm
      cases hrest2 : (x :: rest1).dropWhile nd with
      | nil =>
        left
        rw [hrest2, List.append_nil] at hsplit2
        rw [← hsplit2, ← hrest]
        exact hsplit
      | cons d rest3 =>
        right
        have hdd : isDelim d = true := by
          have h := List.head_dropWhile_not nd (x :: rest1) (by rw [hrest2]; simp)
          simpa [hrest2, nd] using h
        refine ⟨d, rest3, hdd, ?_⟩
        rw [← hrest2, ← hsplit2, ← hrest]
        exact hsplit

/-! ## The loop of add_long_options on a whole string -/

theorem last_of_prefix (pre ds : List Char) (hpre : ∀ z, pre.getLast? = some z → z ≠ ':')
    (hds : ∀ c ∈ ds, isDelim c = true) : ∀ z, (pre ++ ds).getLast? = some z → z ≠ ':' := by
  intro z hz
  rcases List.eq_nil_or_concat ds with rfl | ⟨ds0, d, rfl⟩
  · rw [List.append_nil] at hz
    exact hpre z hz
  · rw [List.concat_eq_append, ← List.append_assoc, List.getLast?_concat] at hz
    have hzd : z = d := (Option.some.inj hz).symm
    have hd : isDelim d = true := hds d (by simp)
    intro h
    rw [← hzd, h, isDelim_colon] at hd
    exact Bool.noConfusion hd

/-- The loop, started by `_tcstok` at the cells `r` that follow the cells
`pre` already dealt with, registers the tokens of `r` in order. -/
theorem loop_from (n : Nat) : ∀ (r : List Char), r.length ≤ n → (∀ c ∈ r, c ≠ NUL) →
    ∀ (fuel : Nat), n ≤ fuel → ∀ (pre : List Char) (st : LongOpts),
    (∀ z, pre.getLast? = some z → z ≠ ':') →
    add_long_options_loop fuel (tcstok (pre ++ (r ++ [NUL])) none pre.length).mem
      (tcstok (pre ++ (r ++ [NUL])) none pre.length).tok
      (tcstok (pre ++ (r ++ [NUL])) none pre.length).save st
    = if pre = [] ∧ colonFirst r = true then Outcome.undefined
      else tokensFold (tokens r) st := by
  induction n with
  | zero =>
    intro r hlen hr fuel _ pre st _
    have hr0 : r = [] := List.length_eq_zero.mp (Nat.le_zero.mp hlen)
    subst hr0
    have hk := tcstok_none pre [] [] pre.length rfl (by simp)
    simp only [List.nil_append] at hk ⊢
    rw [hk]
    simp [loop_none, colonFirst, tokens, tokensAux, tokensFold]
  | succ m ih =>
    intro r hlen hr fuel hfuel pre st hpre
    obtain ⟨ds, hds, hcase⟩ := decompose r hr
    rcases hcase with hrd | ⟨t, hne, ht, hcase2⟩
    · have hk := tcstok_none pre ds [] pre.length rfl hds
      rw [hrd, hk]
      simp [loop_none, colonFirst_delims ds hds, tokens_delims ds hds, tokensFold]
    · have htd : ∀ c ∈ t, isDelim c = false := fun c hc => (ht c hc).2
      have htn : ∀ c ∈ t, c ≠ NUL := fun c hc => (ht c hc).1
      have ha := last_of_prefix pre ds hpre hds
      obtain ⟨f, rfl⟩ : ∃ f, fuel = f + 1 := ⟨fuel - 1, by omega⟩
      have e2 : pre.length + ds.length = (pre ++ ds).length := by simp
      rcases hcase2 with rfl | ⟨d, rest, hd, rfl⟩
      · have hmem : pre ++ ((ds ++ t) ++ [NUL]) = pre ++ (ds ++ (t ++ NUL :: [])) := by simp
        have e1 : pre ++ (ds ++ (t ++ NUL :: [])) = (pre ++ ds) ++ (t ++ NUL :: []) := by simp
        have hk : tcstok ((pre ++ ds) ++ (stripped t ++ NUL :: []))
            none ((pre ++ ds).length + t.length)
            = { tok := none, mem := (pre ++ ds) ++ (stripped t ++ NUL :: []),
                save := (pre ++ ds).length + t.length + 0 } := by
          have h := tcstok_none ((pre ++ ds) ++ stripped t) [] []
            ((pre ++ ds).length + t.length)
            (by simp only [List.length_append, stripped_length]) (by simp)
          simpa using h
        have hiff : (pre = [] ∧ colonFirst (ds ++ t) = true) ↔ (pre ++ ds = [] ∧ t = [':']) := by
          have h := colonFirst_iff ds t [] hds htd hne (Or.inl rfl)
          rw [List.append_nil] at h
          rw [h, List.append_eq_nil, and_assoc]
        rw [hmem, tcstok_last pre ds t [] pre.length rfl hds ht hne]
        simp only []
        rw [e1, e2, loop_body (pre ++ ds) t [] f _ st hne htn ha, hk]
        simp only [loop_none, hiff, tokens_last ds t hds htd hne, tokensFold]
      · have hmem : pre ++ ((ds ++ (t ++ d :: rest)) ++ [NUL])
            = pre ++ (ds ++ (t ++ d :: (rest ++ [NUL]))) := by simp
        have e1 : pre ++ (ds ++ (t ++ NUL :: (rest ++ [NUL])))
            = (pre ++ ds) ++ (t ++ NUL :: (rest ++ [NUL])) := by simp
        have e3 : (pre ++ ds) ++ (stripped t ++ NUL :: (rest ++ [NUL]))
            = ((pre ++ ds) ++ (stripped t ++ [NUL])) ++ (rest ++ [NUL]) := by simp
        have e4 : (pre ++ ds).length + t.length + 1
            = ((pre ++ ds) ++ (stripped t ++ [NUL])).length := by
          simp only [List.length_append, stripped_length, List.length_cons, List.length_nil]
          omega
        have hlast : ∀ z, ((pre ++ ds) ++ (stripped t ++ [NUL])).getLast? = some z → z ≠ ':' := by
          intro z hz
          rw [← List.append_assoc, List.getLast?_concat] at hz
          rw [← Option.some.inj hz]
          exact fun h => colon_ne_NUL h.symm
        have hnil : ¬ ((pre ++ ds) ++ (stripped t ++ [NUL]) = []) := by simp
        have hrl : rest.length ≤ m := by
          simp only [List.length_append, List.length_cons] at hlen
          omega
        have hrn : ∀ c ∈ rest, c ≠ NUL := fun c hc => hr c (by simp [hc])
        have hih := ih rest hrl hrn f (by omega) ((pre ++ ds) ++ (stripped t ++ [NUL]))
          (add_longopt st (some (tokenName t)) (tokenArity t)) hlast
        have hiff : (pre = [] ∧ colonFirst (ds ++ (t ++ d :: rest)) = true)
            ↔ (pre ++ ds = [] ∧ t = [':']) := by
          have h := colonFirst_iff ds t (d :: rest) hds htd hne (Or.inr ⟨d, rest, hd, rfl⟩)
          rw [h, List.append_eq_nil, and_assoc]
        rw [hmem, tcstok_mid pre ds t (rest ++ [NUL]) d pre.length rfl hds ht hne hd]
        simp only []
        rw [e1, e2, loop_body (pre ++ ds) t (rest ++ [NUL]) f _ st hne htn ha, e3, e4, hih]
        simp only [hiff, tokens_mid ds t rest d hds htd hne hd, tokensFold]
        simp [hnil]

/-- The outcome of `add_long_options` on a string without NUL: undefined when
the string starts with the token ":", otherwise the tokens are registered in
order up to the first one whose name is empty. -/
theorem add_long_options_eq (s : List Char) (st : LongOpts) (hs : ∀ c ∈ s, c ≠ NUL) :
    add_long_options s st
      = if colonFirst s = true then Outcome.undefined else tokensFold (tokens s) st := by
  have h := loop_from s.length s (Nat.le_refl _) hs s.length (Nat.le_refl _) [] st (by simp)
  simp only [List.nil_append, List.length_nil, true_and] at h
  unfold add_long_options
  simp only [tcstok, Option.getD_some] at h ⊢
  exact h

/-! ## add_longopt on an initialised table -/

theorem take_set_set {α : Type} (l : List α) (k : Nat) (x y : α) (hk : k < l.length) :
    ((l.set (k + 1) y).set k x).take (k + 1) = l.take k ++ [x] := by
  induction l generalizing k with
  | nil => simp at hk
  | cons a l ih =>
    cases k with
    | zero => simp
    | succ k =>
      have hk2 : k < l.length := by simpa using hk
      simp [ih k hk2]

theorem add_longopt_some (st : LongOpts) (name : List Char) (has_arg : Nat) (hwf : st.wf) :
    (add_longopt st (some name) has_arg).wf ∧
    descriptors (add_longopt st (some name) has_arg)
      = descriptors st ++ [descriptor name has_arg] := by
  obtain ⟨hlen, h1, h2⟩ := hwf
  obtain ⟨k, hk⟩ : ∃ k, st.long_options_nr = k + 1 := ⟨st.long_options_nr - 1, by omega⟩
  by_cases hfull : st.long_options_nr = st.long_options_length
  · have hkl : k < (st.long_options ++ List.replicate LONG_OPTIONS_INCR none).length := by
      simp only [List.length_append, List.length_replicate]
      omega
    have hkl2 : k ≤ st.long_options.length := by omega
    have ht := take_set_set (st.long_options ++ List.replicate LONG_OPTIONS_INCR none) k
      (some { name := some name, has_arg := has_arg, flag := none, val := LONG_OPT })
      (some option.terminator) hkl
    refine ⟨?_, ?_⟩
    · simp only [add_longopt, LongOpts.wf, Option.isNone_some, Bool.false_eq_true, if_false,
        hfull, if_true]
      refine ⟨?_, by omega, ?_⟩
      · split <;> simp [hlen]
      · simp only [LONG_OPTIONS_INCR]
        omega
    · simp only [add_longopt, descriptors, Option.isNone_some, Bool.false_eq_true, if_false,
        hfull, if_true, Option.isSome_some, descriptor]
      rw [← hfull, hk]
      simp only [Nat.add_sub_cancel, ne_eq, Nat.add_one_ne_zero, not_false_eq_true, and_self,
        if_true]
      rw [ht, List.take_append_of_le_length hkl2]
  · have hkl : k < st.long_options.length := by omega
    have ht := take_set_set st.long_options k
      (some { name := some name, has_arg := has_arg, flag := none, val := LONG_OPT })
      (some option.terminator) hkl
    refine ⟨?_, ?_⟩
    · simp only [add_longopt, LongOpts.wf, Option.isNone_some, Bool.false_eq_true, if_false,
        hfull]
      refine ⟨?_, by omega, by omega⟩
      split <;> simp [hlen]
    · simp only [add_longopt, descriptors, Option.isNone_some, Bool.false_eq_true, if_false,
        hfull, Option.isSome_some, descriptor]
      rw [hk]
      simp only [Nat.add_sub_cancel, ne_eq, Nat.add_one_ne_zero, not_false_eq_true, and_self,
        if_true]
      rw [ht]

/-- Registering tokens none of which has an empty name: the call returns and
the descriptors of the tokens are appended in order. -/
theorem tokensFold_ok (ts : List (List Char)) : ∀ (st : LongOpts), st.wf →
    (∀ t ∈ ts, emptyName t = false) →
    ∃ st', tokensFold ts st = Outcome.ok st' ∧ st'.wf ∧
      descriptors st' = descriptors st ++ ts.map tokenDescriptor := by
  induction ts with
  | nil =>
    intro st hwf _
    exact ⟨st, rfl, hwf, by simp⟩
  | cons t ts ih =>
    intro st hwf hts
    have ht : emptyName t = false := hts t (by simp)
    obtain ⟨hwf1, hd1⟩ := add_longopt_some st (tokenName t) (tokenArity t) hwf
    obtain ⟨st', h1, h2, h3⟩ := ih _ hwf1 (fun u hu => hts u (by simp [hu]))
    refine ⟨st', ?_, h2, ?_⟩
    · simp [tokensFold, ht, h1]
    · rw [h3, hd1]
      simp [tokenDescriptor]

/-- Registering tokens one of which has an empty name ends in `parse_error`. -/
theorem tokensFold_exit (ts : List (List Char)) : ∀ (st : LongOpts),
    (∃ t ∈ ts, emptyName t = true) → tokensFold ts st = Outcome.exit PARAMETER_EXIT_CODE := by
  induction ts with
  | nil =>
    intro st h
    obtain ⟨t, ht, _⟩ := h
    simp at ht
  | cons t ts ih =>
    intro st h
    by_cases he : emptyName t = true
    · simp [tokensFold, he]
    · obtain ⟨u, hu, hue⟩ := h
      have hu2 : u ∈ ts := by
        rcases List.mem_cons.1 hu with rfl | h2
        · exact absurd hue he
        · exact h2
      simp [tokensFold, he, ih _ ⟨u, hu2, hue⟩]

theorem colonFirst_token (s : List Char) (h : colonFirst s = true) :
    ∃ ts, tokens s = [':'] :: ts := by
  cases s with
  | nil => simp [colonFirst] at h
  | cons c s1 =>
    cases s1 with
    | nil =>
      have hc : c = ':' := by simpa [colonFirst] using h
      subst hc
      exact ⟨[], by decide⟩
    | cons d s2 =>
      have hcd : c = ':' ∧ isDelim d = true := by simpa [colonFirst] using h
      obtain ⟨hc, hd⟩ := hcd
      subst hc
      exact ⟨tokensAux s2 [], by simp [tokens, tokensAux, isDelim_colon, hd]⟩

/-- C4: on an initialised table and a specification string (a C string),
whenever `add_long_options` returns, the descriptors it appended are those of
the tokens of the string, in order, each with the name and arity that its
suffix designates; and it does return when no token is ":" or "::". -/
theorem add_long_options_arity (s : List Char) (st : LongOpts)
    (hs : ∀ c ∈ s, c ≠ NUL) (hwf : st.wf) :
    (∀ st', add_long_options s st = Outcome.ok st' →
      descriptors st' = descriptors st ++ (tokens s).map tokenDescriptor) ∧
    ((∀ t ∈ tokens s, emptyName t = false) → ∃ st', add_long_options s st = Outcome.ok st') := by
  rw [add_long_options_eq s st hs]
  by_cases hcf : colonFirst s = true
  · obtain ⟨ts, hts⟩ := colonFirst_token s hcf
    refine ⟨?_, ?_⟩
    · intro st' h
      simp [hcf] at h
    · intro hall
      have h := hall [':'] (by simp [hts])
      exact absurd h (by decide)
  · rw [if_neg hcf]
    by_cases hall : ∀ t ∈ tokens s, emptyName t = false
    · obtain ⟨st1, h1, _, h3⟩ := tokensFold_ok (tokens s) st hwf hall
      refine ⟨?_, fun _ => ⟨st1, h1⟩⟩
      intro st' h
      rw [h1] at h
      rw [← Outcome.ok.inj h]
      exact h3
    · have hex : ∃ t ∈ tokens s, emptyName t = true := by
        by_contra hn
        apply hall
        intro t ht
        by_contra hne
        exact hn ⟨t, ht, by simpa using hne⟩
      rw [tokensFold_exit (tokens s) st hex]
      refine ⟨?_, fun h => absurd h hall⟩
      intro st' h
      exact Outcome.noConfusion h

theorem add_long_options_arity_witness :
    ∃ st', add_long_options
        ['f', 'o', 'o', ',', 'b', 'a', 'r', ':', ',', 'b', 'a', 'z', ':', ':']
        (init_longopt LongOpts.initial) = Outcome.ok st' ∧
      descriptors st' = [descriptor ['f', 'o', 'o'] no_argument,
        descriptor ['b', 'a', 'r'] required_argument,
        descriptor ['b', 'a', 'z'] optional_argument] := by
  obtain ⟨hA, hB⟩ := add_long_options_arity
    ['f', 'o', 'o', ',', 'b', 'a', 'r', ':', ',', 'b', 'a', 'z', ':', ':']
    (init_longopt LongOpts.initial) (by decide) (by decide)
  obtain ⟨st', h⟩ := hB (by decide)
  refine ⟨st', h, ?_⟩
  rw [hA st' h]
  decide

/-- C5 (failing input): on the string ":" the arity check of `add_long_options`
reads the cell before the start of the string, so the call does not end in
`parse_error` by itself: the outcome is undefined. -/
theorem add_long_options_lone_colon (st : LongOpts) :
    add_long_options [':'] st = Outcome.undefined := by
  rw [add_long_options_eq [':'] st (by decide)]
  rfl

/-- When the string does not start with the token ":", `add_long_options`
ends in `parse_error` exactly when some token is ":" or "::", and returns
otherwise. -/
theorem add_long_options_exit_iff (s : List Char) (st : LongOpts)
    (hs : ∀ c ∈ s, c ≠ NUL) (hwf : st.wf) (hcf : colonFirst s = false) :
    (add_long_options s st = Outcome.exit PARAMETER_EXIT_CODE ↔
      ∃ t ∈ tokens s, emptyName t = true) ∧
    ((¬ ∃ t ∈ tokens s, emptyName t = true) → ∃ st', add_long_options s st = Outcome.ok st') := by
  rw [add_long_options_eq s st hs, hcf]
  simp only [Bool.false_eq_true, if_false]
  by_cases hex : ∃ t ∈ tokens s, emptyName t = true
  · rw [tokensFold_exit (tokens s) st hex]
    exact ⟨⟨fun _ => hex, fun _ => rfl⟩, fun h => absurd hex h⟩
  · have hall : ∀ t ∈ tokens s, emptyName t = false := by
      intro t ht
      by_contra hne
      exact hex ⟨t, ht, by simpa using hne⟩
    obtain ⟨st1, h1, _, _⟩ := tokensFold_ok (tokens s) st hwf hall
    rw [h1]
    refine ⟨⟨fun h => Outcome.noConfusion h, fun h => absurd h hex⟩, fun _ => ⟨st1, rfl⟩⟩

/-! ## The loops of generate_output -/

/-- The test made on a short option, `_tcschr` followed by the read of the
next cell: `none` when that read is outside the string. -/
theorem tcschr_spec (s : List Char) (c : Char) (hc : ¬ (c = NUL)) :
    (match tcschr s c with
      | some i =>
        if s.length < i + 1 then none
        else some (decide (peek (s ++ [NUL]) (i + 1) = ':'))
      | none => some false) = some (followedByColon s c) := by
  induction s with
  | nil =>
    have h : List.indexOf c [NUL] = 1 := by
      rw [List.indexOf_cons_ne _ (fun h => hc h.symm)]
      rfl
    simp [tcschr, h, followedByColon]
  | cons a s ih =>
    by_cases hac : a = c
    · subst hac
      have h0 : List.indexOf a (a :: s ++ [NUL]) = 0 := List.indexOf_cons_self _ _
      have hn : ¬ (NUL = ':') := by decide
      cases s with
      | nil => simp [tcschr, h0, followedByColon, peek, hn]
      | cons d s2 => by_cases hd : d = ':' <;> simp [tcschr, h0, followedByColon, peek, hd]
    · have h1 : List.indexOf c (a :: s ++ [NUL]) = List.indexOf c (s ++ [NUL]) + 1 :=
        List.indexOf_cons_ne _ hac
      have h2 : followedByColon (a :: s) c = followedByColon s c := by
        simp [followedByColon, List.dropWhile_cons, hac]
      rw [h2, ← ih]
      unfold tcschr
      rw [h1]
      by_cases hlt : List.indexOf c (s ++ [NUL]) < (s ++ [NUL]).length
      · have hlt2 : List.indexOf c (s ++ [NUL]) + 1 < (a :: s ++ [NUL]).length := by
          simpa using hlt
        simp only [hlt, hlt2, if_true]
        simp [peek]
      · have hlt2 : ¬ (List.indexOf c (s ++ [NUL]) + 1 < (a :: s ++ [NUL]).length) := by
          simpa using hlt
        simp only [hlt, hlt2, if_false]

theorem isError_iff (r : ScanResult) :
    isError r = true ↔ (r.opt = '?'.toNat ∨ r.opt = ':'.toNat) := by
  simp [isError]

theorem NON_OPT_ne_LONG_OPT : ¬ (NON_OPT = LONG_OPT) := by decide

theorem printable_long (longopts : List (Option option)) (r : ScanResult)
    (hp : printable longopts r = true) (he : ¬ (isError r = true)) (hl : r.opt = LONG_OPT) :
    ∃ o name, longopts.get? r.longindex = some (some o) ∧ o.name = some name := by
  unfold printable at hp
  rw [if_neg he, if_pos hl] at hp
  split at hp
  · next o hg =>
    cases hn : o.name with
    | none =>
      rw [hn] at hp
      exact Bool.noConfusion hp
    | some name => exact ⟨o, name, hg, hn⟩
  · exact Bool.noConfusion hp

theorem printable_nonopt (longopts : List (Option option)) (r : ScanResult)
    (hp : printable longopts r = true) (he : ¬ (isError r = true)) (hl : ¬ (r.opt = LONG_OPT))
    (hn : r.opt = NON_OPT) : ∃ arg, r.optarg = some arg := by
  unfold printable at hp
  rw [if_neg he, if_neg hl, if_pos hn] at hp
  exact Option.isSome_iff_exists.1 hp

theorem printable_short (longopts : List (Option option)) (r : ScanResult)
    (hp : printable longopts r = true) (he : ¬ (isError r = true)) (hl : ¬ (r.opt = LONG_OPT))
    (hn : ¬ (r.opt = NON_OPT)) : ¬ (Char.ofNat r.opt = NUL) := by
  unfold printable at hp
  rw [if_neg he, if_neg hl, if_neg hn] at hp
  simpa using hp

/-- One round of the loop of `generate_output` when output is on. -/
theorem generate_output_loop_cons (cfg : Config) (optstr : List Char)
    (longopts : List (Option option)) (r : ScanResult) (rest : List ScanResult)
    (out : List Char) (ec : Nat) (hq : cfg.quiet_output = false)
    (hp : printable longopts r = true) :
    generate_output_loop cfg optstr longopts (r :: rest) out ec =
      generate_output_loop cfg optstr longopts rest (out ++ record cfg optstr longopts r)
        (if isError r = true then GETOPT_EXIT_CODE else ec) := by
  rw [generate_output_loop]
  by_cases he : isError r = true
  · have he2 := (isError_iff r).1 he
    rw [if_pos he2, if_pos he]
    simp [record, he]
  · have he2 : ¬ (r.opt = '?'.toNat ∨ r.opt = ':'.toNat) := fun h => he ((isError_iff r).2 h)
    rw [if_neg he2, if_pos hq, if_neg he]
    by_cases hl : r.opt = LONG_OPT
    · rw [if_pos hl]
      obtain ⟨o, name, hg, hn⟩ := printable_long longopts r hp he hl
      have hrec : record cfg optstr longopts r
          = [' ', '-', '-'] ++ name ++ (if o.has_arg ≠ 0 then argText cfg r else []) := by
        unfold record entryName entryHasArg
        rw [if_neg he, if_pos hl, hg]
        simp only [hn, Option.getD_some]
      rw [hrec, hg]
      simp only [hn]
      by_cases ha : o.has_arg = 0
      · simp [ha]
      · simp [ha, argText]
    · rw [if_neg hl]
      by_cases hn : r.opt = NON_OPT
      · rw [if_pos hn]
        obtain ⟨arg, ho⟩ := printable_nonopt longopts r hp he hl hn
        have hrec : record cfg optstr longopts r = ' ' :: normalize cfg arg := by
          unfold record argText
          rw [if_neg he, if_neg hl, if_pos hn, ho]
          rfl
        rw [hrec, ho]
      · rw [if_neg hn]
        have hc := printable_short longopts r hp he hl hn
        have hspec := tcschr_spec optstr (Char.ofNat r.opt) hc
        have hrec : record cfg optstr longopts r = [' ', '-', Char.ofNat r.opt] ++
            (if followedByColon optstr (Char.ofNat r.opt) = true then argText cfg r else []) := by
          unfold record
          rw [if_neg he, if_neg hl, if_neg hn]
        rw [hrec]
        cases ht : tcschr optstr (Char.ofNat r.opt) with
        | none =>
          rw [ht] at hspec
          have hf : followedByColon optstr (Char.ofNat r.opt) = false := by
            simpa using hspec.symm
          simp [hf]
        | some i =>
          rw [ht] at hspec
          simp only [] at hspec ⊢
          by_cases hi : optstr.length < i + 1
          · simp [hi] at hspec
          · rw [if_neg hi] at hspec ⊢
            by_cases hk : peek (optstr ++ [NUL]) (i + 1) = ':'
            · have hf : followedByColon optstr (Char.ofNat r.opt) = true := by
                simpa [hk] using hspec.symm
              simp [hf, hk, argText]
            · have hf : followedByColon optstr (Char.ofNat r.opt) = false := by
                simpa [hk] using hspec.symm
              simp [hf, hk]

/-- The whole loop of `generate_output` when output is on: the records of the
returns in order, and the error status when one of them is an error. -/
theorem generate_output_loop_eq (cfg : Config) (optstr : List Char)
    (longopts : List (Option option)) (hq : cfg.quiet_output = false) :
    ∀ (results : List ScanResult) (out : List Char) (ec : Nat),
    (∀ r ∈ results, printable longopts r = true) →
    generate_output_loop cfg optstr longopts results out ec =
      some (out ++ (results.map (record cfg optstr longopts)).flatten,
        if results.any isError = true then GETOPT_EXIT_CODE else ec) := by
  intro results
  induction results with
  | nil =>
    intro out ec _
    simp [generate_output_loop]
  | cons r rest ih =>
    intro out ec hp
    rw [generate_output_loop_cons cfg optstr longopts r rest out ec hq (hp r (by simp)),
      ih _ _ (fun x hx => hp x (by simp [hx]))]
    by_cases he : isError r = true
    · simp [he]
    · simp [he]

/-- The whole loop of `generate_output` when output is off. -/
theorem generate_output_loop_quiet (cfg : Config) (optstr : List Char)
    (longopts : List (Option option)) (hq : cfg.quiet_output = true) :
    ∀ (results : List ScanResult) (out : List Char) (ec : Nat),
    generate_output_loop cfg optstr longopts results out ec =
      some (out, if results.any isError = true then GETOPT_EXIT_CODE else ec) := by
  intro results
  induction results with
  | nil =>
    intro out ec
    simp [generate_output_loop]
  | cons r rest ih =>
    intro out ec
    rw [generate_output_loop]
    by_cases he : isError r = true
    · have he2 := (isError_iff r).1 he
      rw [if_pos he2, ih]
      simp [he]
    · have he2 : ¬ (r.opt = '?'.toNat ∨ r.opt = ':'.toNat) := fun h => he ((isError_iff r).2 h)
      have hq2 : ¬ (cfg.quiet_output = false) := by simp [hq]
      rw [if_neg he2, if_neg hq2, ih]
      simp [he]

/-- The loop that prints the remaining parameters. -/
theorem operands_loop_eq (cfg : Config) (argv : List (List Char)) (argc : Nat)
    (hargc : argc ≤ argv.length) :
    ∀ (n optind : Nat) (out : List Char), n = argc - optind →
    operands_loop cfg argv n optind out = some (out ++ operandsText cfg argv argc optind) := by
  intro n
  induction n with
  | zero =>
    intro optind out hn
    have h : (argv.take argc).drop optind = [] := by
      apply List.drop_eq_nil_of_le
      simp only [List.length_take]
      omega
    simp [operands_loop, operandsText, h]
  | succ n ih =>
    intro optind out hn
    have hlt : optind < argv.length := by omega
    have hlt2 : optind < (argv.take argc).length := by
      simp only [List.length_take]
      omega
    have hd : (argv.take argc).drop optind
        = argv[optind] :: (argv.take argc).drop (optind + 1) := by
      rw [List.drop_eq_getElem_cons hlt2]
      simp
    rw [operands_loop]
    simp only [List.get?_eq_getElem?, List.getElem?_eq_getElem hlt]
    rw [ih (optind + 1) _ (by omega)]
    simp [operandsText, hd]

/-- The output and status of `generate_output` when output is on. -/
theorem generate_output_eq (cfg : Config) (argv : List (List Char)) (argc : Nat)
    (optstr : List Char) (longopts : List (Option option)) (results : List ScanResult)
    (optind : Nat) (hq : cfg.quiet_output = false) (hargc : argc ≤ argv.length)
    (hp : ∀ r ∈ results, printable longopts r = true) :
    generate_output cfg argv argc optstr longopts results optind =
      some ((results.map (record cfg optstr longopts)).flatten ++ [' ', '-', '-'] ++
        operandsText cfg argv argc optind ++ ['\n'], statusOf results) := by
  unfold generate_output
  rw [generate_output_loop_eq cfg optstr longopts hq results [] EXIT_SUCCESS hp]
  simp only [hq, if_true, List.nil_append]
  rw [operands_loop_eq cfg argv argc hargc _ optind _ rfl]
  simp [statusOf]

/-- The output and status of `generate_output` when output is off. -/
theorem generate_output_quiet (cfg : Config) (argv : List (List Char)) (argc : Nat)
    (optstr : List Char) (longopts : List (Option option)) (results : List ScanResult)
    (optind : Nat) (hq : cfg.quiet_output = true) :
    generate_output cfg argv argc optstr longopts results optind =
      some ([], statusOf results) := by
  unfold generate_output
  rw [generate_output_loop_quiet cfg optstr longopts hq results [] EXIT_SUCCESS]
  simp [hq, statusOf]

/-! ## Claims about generate_output -/

/-- C6 (counterexample): a return `NON_OPT` of the scanner (short option
string "-a", parameter "x") is a non-error return that is neither a short nor
a long option; the code writes the quoted parameter for it, not the record of
a short option, so the line is not the concatenation that the claim gives. -/
theorem generate_output_non_option_return :
    generate_output Config.initial [['g'], ['x']] 2 ['-', 'a'] []
        [{ opt := NON_OPT, optarg := some ['x'], longindex := 0 }] 2
      = some ([' ', SQ, 'x', SQ, ' ', '-', '-', '\n'], 0) ∧
    generate_output Config.initial [['g'], ['x']] 2 ['-', 'a'] []
        [{ opt := NON_OPT, optarg := some ['x'], longindex := 0 }] 2
      ≠ some (([{ opt := NON_OPT, optarg := some ['x'], longindex := 0 }].map
          (claimedRecord Config.initial ['-', 'a'] [])).flatten ++ [' ', '-', '-'] ++
          operandsText Config.initial [['g'], ['x']] 2 2 ++ ['\n'], 0) := by
  decide

/-- C6 (amended): with output on, the line is the concatenation, in scanner
order, of one record per return (nothing for an error, the quoted parameter
for a `NON_OPT` return, name or letter and possibly the argument for an
option), followed by the terminator part. -/
theorem generate_output_records (cfg : Config) (argv : List (List Char)) (argc : Nat)
    (optstr : List Char) (longopts : List (Option option)) (results : List ScanResult)
    (optind : Nat) (hq : cfg.quiet_output = false) (hargc : argc ≤ argv.length)
    (hp : ∀ r ∈ results, printable longopts r = true) :
    generate_output cfg argv argc optstr longopts results optind =
      some ((results.map (record cfg optstr longopts)).flatten ++
        ([' ', '-', '-'] ++ operandsText cfg argv argc optind ++ ['\n']), statusOf results) := by
  rw [generate_output_eq cfg argv argc optstr longopts results optind hq hargc hp]
  simp

theorem generate_output_records_witness :
    generate_output Config.initial [['g'], ['x']] 2 ['-', 'a', ':'] []
        [{ opt := 'a'.toNat, optarg := some ['v'], longindex := 0 },
         { opt := NON_OPT, optarg := some ['x'], longindex := 0 }] 2
      = some ([' ', '-', 'a', ' ', SQ, 'v', SQ, ' ', SQ, 'x', SQ, ' ', '-', '-', '\n'], 0) :=
  generate_output_records Config.initial [['g'], ['x']] 2 ['-', 'a', ':'] []
    [{ opt := 'a'.toNat, optarg := some ['v'], longindex := 0 },
     { opt := NON_OPT, optarg := some ['x'], longindex := 0 }] 2 rfl (by decide) (by decide)

/-- C7: with output on, the line ends with " --", then a space and the
normalized parameter for every index from `optind` to `argc - 1` in order,
then one newline, whatever the parameters look like. -/
theorem generate_output_operand_tail (cfg : Config) (argv : List (List Char)) (argc : Nat)
    (optstr : List Char) (longopts : List (Option option)) (results : List ScanResult)
    (optind : Nat) (hq : cfg.quiet_output = false) (hargc : argc ≤ argv.length)
    (hp : ∀ r ∈ results, printable longopts r = true) :
    ∃ out ec, generate_output cfg argv argc optstr longopts results optind = some (out, ec) ∧
      ([' ', '-', '-'] ++
        (((argv.take argc).drop optind).map (fun arg => ' ' :: normalize cfg arg)).flatten ++
        ['\n']) <:+ out := by
  refine ⟨_, _, generate_output_eq cfg argv argc optstr longopts results optind hq hargc hp, ?_⟩
  exact ⟨(results.map (record cfg optstr longopts)).flatten, by simp [operandsText]⟩

theorem generate_output_operand_tail_witness :
    ∃ out ec, generate_output Config.initial [['g'], ['-', '-'], ['-', 'x'], ['f', 'o', 'o']] 4
        ['+', 'x'] [] [] 2 = some (out, ec) ∧
      [' ', '-', '-', ' ', SQ, '-', 'x', SQ, ' ', SQ, 'f', 'o', 'o', SQ, '\n'] <:+ out :=
  generate_output_operand_tail Config.initial [['g'], ['-', '-'], ['-', 'x'], ['f', 'o', 'o']] 4
    ['+', 'x'] [] [] 2 rfl (by decide) (by decide)

theorem records_filter (cfg : Config) (optstr : List Char) (longopts : List (Option option))
    (results : List ScanResult) :
    ((results.filter (fun r => !isError r)).map (record cfg optstr longopts)).flatten
      = (results.map (record cfg optstr longopts)).flatten := by
  induction results with
  | nil => rfl
  | cons r rest ih =>
    by_cases he : isError r = true
    · simp [List.filter_cons, he, ih, record]
    · simp [List.filter_cons, he, ih]

/-- C8: for every setting of the quiet switches the status returned is 0 when
no return of the scanner is an error and `GETOPT_EXIT_CODE` (1) when one is;
the loop goes on after an error: with output on, the text written is the
records of all the returns that are not errors, in order, those after an
error included, followed by the terminator part. -/
theorem generate_output_status (cfg : Config) (argv : List (List Char)) (argc : Nat)
    (optstr : List Char) (longopts : List (Option option)) (results : List ScanResult)
    (optind : Nat) (hargc : argc ≤ argv.length)
    (hp : ∀ r ∈ results, printable longopts r = true) :
    generate_output cfg argv argc optstr longopts results optind =
      some
        (if cfg.quiet_output = true then []
         else
          ((results.filter (fun r => !isError r)).map (record cfg optstr longopts)).flatten ++
            [' ', '-', '-'] ++ operandsText cfg argv argc optind ++ ['\n'],
         if results.any isError = true then 1 else 0) := by
  cases hq : cfg.quiet_output with
  | false =>
    rw [generate_output_eq cfg argv argc optstr longopts results optind hq hargc hp,
      records_filter]
    rfl
  | true =>
    rw [generate_output_quiet cfg argv argc optstr longopts results optind hq]
    rfl

theorem generate_output_status_witness :
    generate_output Config.initial [['g'], ['x']] 2 ['+', 'o', ':', 'b'] []
        [{ opt := 'b'.toNat, optarg := none, longindex := 0 },
         { opt := '?'.toNat, optarg := none, longindex := 0 },
         { opt := 'o'.toNat, optarg := some ['v'], longindex := 0 }] 1
      = some ([' ', '-', 'b', ' ', '-', 'o', ' ', SQ, 'v', SQ, ' ', '-', '-', ' ', SQ, 'x', SQ,
          '\n'], 1) ∧
    generate_output { Config.initial with quiet_output := true, quiet_errors := true }
        [['g'], ['x']] 2 ['+', 'o', ':', 'b'] []
        [{ opt := 'b'.toNat, optarg := none, longindex := 0 },
         { opt := '?'.toNat, optarg := none, longindex := 0 },
         { opt := 'o'.toNat, optarg := some ['v'], longindex := 0 }] 1
      = some ([], 1) :=
  ⟨generate_output_status Config.initial [['g'], ['x']] 2 ['+', 'o', ':', 'b'] []
      [{ opt := 'b'.toNat, optarg := none, longindex := 0 },
       { opt := '?'.toNat, optarg := none, longindex := 0 },
       { opt := 'o'.toNat, optarg := some ['v'], longindex := 0 }] 1 (by decide) (by decide),
    generate_output_status { Config.initial with quiet_output := true, quiet_errors := true }
      [['g'], ['x']] 2 ['+', 'o', ':', 'b'] []
      [{ opt := 'b'.toNat, optarg := none, longindex := 0 },
       { opt := '?'.toNat, optarg := none, longindex := 0 },
       { opt := 'o'.toNat, optarg := some ['v'], longindex := 0 }] 1 (by decide) (by decide)⟩

/-- C10 (counterexample): for the short option a declared "a::" and returned
without argument text, the code writes the letter and then the normalized
empty text, two single quotes, where the claim has no argument token. -/
theorem generate_output_null_optarg :
    generate_output Config.initial [['g']] 1 ['a', ':', ':'] []
        [{ opt := 'a'.toNat, optarg := none, longindex := 0 }] 1
      = some ([' ', '-', 'a', ' ', SQ, SQ, ' ', '-', '-', '\n'], 0) ∧
    generate_output Config.initial [['g']] 1 ['a', ':', ':'] []
        [{ opt := 'a'.toNat, optarg := none, longindex := 0 }] 1
      ≠ some ([' ', '-', 'a', ' ', '-', '-', '\n'], 0) := by
  decide

theorem record_option (cfg : Config) (optstr : List Char) (longopts : List (Option option))
    (r : ScanResult) (he : isError r = false) (hn : ¬ (r.opt = NON_OPT)) :
    record cfg optstr longopts r = optionHead longopts r ++
      (if declaredWithArg optstr longopts r = true then ' ' :: normalize cfg (r.optarg.getD [])
       else []) := by
  unfold record optionHead declaredWithArg
  have he2 : ¬ (isError r = true) := by simp [he]
  rw [if_neg he2]
  by_cases hl : r.opt = LONG_OPT
  · simp [hl, argText]
  · simp [hl, hn, argText]

/-- C10 (amended): for a short or long option return, the code writes the
letter or the name, and an argument exactly when the option is declared with
one: the normalized text that the scanner supplied, or the normalized empty
text when it supplied none (two single quotes with quoting enabled). -/
theorem generate_output_option_argument (cfg : Config) (argv : List (List Char)) (argc : Nat)
    (optstr : List Char) (longopts : List (Option option))
    (before after : List ScanResult) (r : ScanResult) (optind : Nat)
    (hq : cfg.quiet_output = false) (hargc : argc ≤ argv.length)
    (hp : ∀ x ∈ before ++ r :: after, printable longopts x = true)
    (he : isError r = false) (hn : ¬ (r.opt = NON_OPT)) :
    generate_output cfg argv argc optstr longopts (before ++ r :: after) optind =
      some ((before.map (record cfg optstr longopts)).flatten ++
        (optionHead longopts r ++
          (if declaredWithArg optstr longopts r = true then
            ' ' :: normalize cfg (r.optarg.getD [])
           else [])) ++
        (after.map (record cfg optstr longopts)).flatten ++
        ([' ', '-', '-'] ++ operandsText cfg argv argc optind ++ ['\n']),
        statusOf (before ++ r :: after)) ∧
    (cfg.quote = true → normalize cfg [] = [SQ, SQ]) := by
  refine ⟨?_, ?_⟩
  · rw [generate_output_eq cfg argv argc optstr longopts _ optind hq hargc hp,
      ← record_option cfg optstr longopts r he hn]
    simp
  · intro hquote
    simp [normalize, hquote, normalize_loop]

theorem generate_output_option_argument_witness :
    generate_output Config.initial [['g']] 1 ['a', ':', ':', 'b'] []
        ([{ opt := 'b'.toNat, optarg := none, longindex := 0 }] ++
          { opt := 'a'.toNat, optarg := none, longindex := 0 } :: []) 1 =
      some ([' ', '-', 'b', ' ', '-', 'a', ' ', SQ, SQ, ' ', '-', '-', '\n'], 0) ∧
    (Config.initial.quote = true → normalize Config.initial [] = [SQ, SQ]) :=
  generate_output_option_argument Config.initial [['g']] 1 ['a', ':', ':', 'b'] []
    [{ opt := 'b'.toNat, optarg := none, longindex := 0 }] []
    { opt := 'a'.toNat, optarg := none, longindex := 0 } 1 rfl (by decide) (by decide)
    (by decide) (by decide)

/-! ## The end-of-options marker among the tokens of the line -/

/-- C9 (counterexample): with quoting disabled and the parameters "--" and
"x" left after the scanner consumed the first "--", the line is " -- -- x":
the bare token "--" occurs twice among its space-separated tokens.  With
quoting enabled under the Bourne dialect the parameter "a -- b" is written
as 'a -- b', and the line " -- 'a -- b'" has the bare token twice as well. -/
theorem generate_output_marker_twice :
    generate_output { Config.initial with quote := false }
        [['g'], ['-', '-'], ['-', '-'], ['x']] 4 ['+', 'a'] [] [] 2
      = some ([' ', '-', '-', ' ', '-', '-', ' ', 'x', '\n'], 0) ∧
    (lineTokens [' ', '-', '-', ' ', '-', '-', ' ', 'x', '\n']).count ['-', '-'] = 2 ∧
    generate_output Config.initial
        [['g'], ['-', '-'], ['a', ' ', '-', '-', ' ', 'b']] 3 ['+', 'a'] [] [] 2
      = some ([' ', '-', '-', ' ', SQ, 'a', ' ', '-', '-', ' ', 'b', SQ, '\n'], 0) ∧
    (lineTokens [' ', '-', '-', ' ', SQ, 'a', ' ', '-', '-', ' ', 'b', SQ, '\n']).count
      ['-', '-'] = 2 := by
  decide

theorem splitSpacesAux_run (t rest cur : List Char) (ht : ' ' ∉ t) :
    splitSpacesAux (t ++ rest) cur = splitSpacesAux rest (cur ++ t) := by
  induction t generalizing cur with
  | nil => simp
  | cons c t ih =>
    have hc : ¬ (c = ' ') := fun h => ht (by simp [h])
    have ht2 : ' ' ∉ t := fun h => ht (by simp [h])
    simp [splitSpacesAux, hc, ih (cur ++ [c]) ht2]

theorem splitSpacesAux_ne_nil (t cur : List Char) : splitSpacesAux t cur ≠ [] := by
  induction t generalizing cur with
  | nil => simp [splitSpacesAux]
  | cons c t ih =>
    unfold splitSpacesAux
    split
    · simp
    · exact ih _

theorem splitSpacesAux_nil (cur : List Char) : splitSpacesAux [] cur = [cur] := rfl

theorem splitSpacesAux_space (rest cur : List Char) :
    splitSpacesAux (' ' :: rest) cur = cur :: splitSpacesAux rest [] := by
  simp [splitSpacesAux]

theorem splitSpacesAux_other (c : Char) (rest cur : List Char) (hc : ¬ (c = ' ')) :
    splitSpacesAux (c :: rest) cur = splitSpacesAux rest (cur ++ [c]) := by
  simp [splitSpacesAux, hc]

/-- Splitting a text at a given space: the pieces before it, then the pieces
after it. -/
theorem splitSpacesAux_append_space (t rest cur : List Char) :
    splitSpacesAux (t ++ ' ' :: rest) cur = splitSpacesAux t cur ++ splitSpacesAux rest [] := by
  induction t generalizing cur with
  | nil => simp [splitSpacesAux]
  | cons c t ih =>
    by_cases hc : c = ' '
    · simp [splitSpacesAux, hc, ih]
    · simp [splitSpacesAux, hc, ih]

/-- The bare markers of a text followed by tokens that are each written
after one space. -/
theorem count_marker_spaced (toks : List (List Char)) : ∀ (t cur : List Char),
    (splitSpacesAux (t ++ (toks.map (fun u => ' ' :: u)).flatten) cur).count ['-', '-'] =
      (splitSpacesAux t cur).count ['-', '-'] + (toks.map bareMarkers).sum := by
  induction toks with
  | nil =>
    intro t cur
    simp
  | cons u toks ih =>
    intro t cur
    simp only [List.map_cons, List.flatten_cons, List.cons_append, List.sum_cons]
    rw [splitSpacesAux_append_space, List.count_append, ih u []]
    unfold bareMarkers
    omega

theorem record_eq_tokens (cfg : Config) (optstr : List Char) (longopts : List (Option option))
    (r : ScanResult) :
    record cfg optstr longopts r =
      ((recordTokens cfg optstr longopts r).map (fun t => ' ' :: t)).flatten := by
  unfold record recordTokens
  by_cases he : isError r = true
  · simp [he]
  · by_cases hl : r.opt = LONG_OPT
    · by_cases ha : entryHasArg longopts r.longindex = 0 <;> simp [he, hl, ha, argText]
    · by_cases hn : r.opt = NON_OPT
      · simp [he, hn, NON_OPT_ne_LONG_OPT, argText]
      · by_cases hf : followedByColon optstr (Char.ofNat r.opt) = true <;>
          simp [he, hl, hn, hf, argText]

/-- The line without its final newline is made of the tokens of the
records, the marker and the normalized parameters, each after one space. -/
theorem line_eq_tokens (cfg : Config) (argv : List (List Char)) (argc : Nat)
    (optstr : List Char) (longopts : List (Option option)) (results : List ScanResult)
    (optind : Nat) :
    (results.map (record cfg optstr longopts)).flatten ++ [' ', '-', '-'] ++
      operandsText cfg argv argc optind =
      (((results.map (recordTokens cfg optstr longopts)).flatten ++ [['-', '-']] ++
        ((argv.take argc).drop optind).map (normalize cfg)).map (fun t => ' ' :: t)).flatten := by
  have h1 : (results.map (record cfg optstr longopts)).flatten
      = (((results.map (recordTokens cfg optstr longopts)).flatten).map
          (fun t => ' ' :: t)).flatten := by
    induction results with
    | nil => rfl
    | cons r rest ih =>
      simp only [List.map_cons, List.flatten_cons, List.map_append, List.flatten_append]
      rw [ih, record_eq_tokens]
  rw [h1]
  simp [operandsText, List.map_map, Function.comp_def]

theorem enc_no_space (shell : shell_t) (c : Char) (hc : ¬ (c = ' ')) : ' ' ∉ enc shell c := by
  have h1 : ¬ (' ' = SQ) := by decide
  have h2 : ¬ (' ' = BS) := by decide
  have h3 : ¬ (' ' = '!') := by decide
  have h4 : ¬ (' ' = 'n') := by decide
  have h5 : ¬ (' ' = c) := fun h => hc h.symm
  unfold enc
  cases shell <;> (repeat' split) <;> simp [h1, h2, h3, h4, h5]

theorem concat_SQ_ne_marker (x : List Char) : x ++ [SQ] ≠ ['-', '-'] := by
  intro h
  have h2 := congrArg List.reverse h
  simp only [List.reverse_append, List.reverse_cons, List.reverse_nil, List.nil_append,
    List.singleton_append, List.cons_append] at h2
  have h1 : ¬ (SQ = '-') := by decide
  exact h1 (List.cons.inj h2).1

theorem cons_SQ_ne_marker (x : List Char) : SQ :: x ≠ ['-', '-'] := by
  intro h
  have h1 : ¬ (SQ = '-') := by decide
  exact h1 (List.cons.inj h).1

/-- Under the Bourne dialect the encoding of a piece is "--" exactly when
the piece is. -/
theorem enc_bash_marker (p : List Char) :
    (p.map (enc shell_t.BASH)).flatten = ['-', '-'] ↔ p = ['-', '-'] := by
  by_cases h : SQ ∈ p
  · have h1 : SQ ∈ (p.map (enc shell_t.BASH)).flatten := by
      rw [List.mem_flatten]
      exact ⟨enc shell_t.BASH SQ, List.mem_map.2 ⟨SQ, h, rfl⟩, by simp [enc]⟩
    constructor
    · intro e
      rw [e] at h1
      exact absurd h1 (by decide)
    · intro e
      rw [e] at h
      exact absurd h (by decide)
  · rw [enc_bash_plain p h]

/-- Under the Bourne dialect, after a space inside a quoted text the pieces
that are "--" are those of the text, its last piece apart, which receives
the closing quote. -/
theorem bash_inner_markers (l : List Char) : ∀ cur : List Char,
    (splitSpacesAux ((l.map (enc shell_t.BASH)).flatten ++ [SQ])
        ((cur.map (enc shell_t.BASH)).flatten)).count ['-', '-'] =
      ((splitSpacesAux l cur).dropLast).count ['-', '-'] := by
  induction l with
  | nil =>
    intro cur
    have hs : ¬ (SQ = ' ') := by decide
    simp only [List.map_nil, List.flatten_nil, List.nil_append]
    rw [splitSpacesAux_other SQ [] _ hs, splitSpacesAux_nil, splitSpacesAux_nil,
      List.dropLast_single, List.count_nil]
    exact List.count_eq_zero.2 (by
      simp only [List.mem_singleton]
      exact fun h => concat_SQ_ne_marker _ h.symm)
  | cons c l ih =>
    intro cur
    by_cases hc : c = ' '
    · have he : enc shell_t.BASH ' ' = [' '] := by decide
      rw [hc]
      simp only [List.map_cons, List.flatten_cons, he, List.singleton_append, List.cons_append]
      rw [splitSpacesAux_space, splitSpacesAux_space,
        List.dropLast_cons_of_ne_nil (splitSpacesAux_ne_nil l []), List.count_cons,
        List.count_cons]
      have ih2 := ih []
      simp only [List.map_nil, List.flatten_nil] at ih2
      simp only [List.nil_append]
      rw [ih2]
      have hm := enc_bash_marker cur
      by_cases hcur : cur = ['-', '-']
      · have e1 : ((cur.map (enc shell_t.BASH)).flatten == ['-', '-']) = true := by
          rw [hm.2 hcur]
          decide
        have e2 : (cur == ['-', '-']) = true := by
          rw [hcur]
          decide
        rw [if_pos e1, if_pos e2]
      · have hne : ¬ ((cur.map (enc shell_t.BASH)).flatten = ['-', '-']) := fun e => hcur (hm.1 e)
        simp [hcur, hne]
    · have hsp := enc_no_space shell_t.BASH c hc
      simp only [List.map_cons, List.flatten_cons, List.append_assoc]
      rw [splitSpacesAux_run _ _ _ hsp]
      have ih2 := ih (cur ++ [c])
      simp only [List.map_append, List.flatten_append, List.map_cons, List.map_nil,
        List.flatten_cons, List.flatten_nil, List.append_nil] at ih2
      rw [ih2, splitSpacesAux_other c l cur hc]

/-- Under the Bourne dialect the first piece of a quoted text starts with the
opening quote, so the pieces that are "--" are those of the text other than
its first and its last piece. -/
theorem bash_quoted_markers (l : List Char) : ∀ x y : List Char,
    (splitSpacesAux ((l.map (enc shell_t.BASH)).flatten ++ [SQ]) (SQ :: x)).count ['-', '-'] =
      ((splitSpacesAux l y).tail.dropLast).count ['-', '-'] := by
  induction l with
  | nil =>
    intro x y
    have hs : ¬ (SQ = ' ') := by decide
    simp only [List.map_nil, List.flatten_nil, List.nil_append]
    rw [splitSpacesAux_other SQ [] _ hs, splitSpacesAux_nil, splitSpacesAux_nil,
      List.tail_cons, List.dropLast_nil, List.count_nil]
    exact List.count_eq_zero.2 (by
      simp only [List.mem_singleton, List.cons_append]
      exact fun h => cons_SQ_ne_marker _ h.symm)
  | cons c l ih =>
    intro x y
    by_cases hc : c = ' '
    · have he : enc shell_t.BASH ' ' = [' '] := by decide
      rw [hc]
      simp only [List.map_cons, List.flatten_cons, he, List.singleton_append, List.cons_append]
      rw [splitSpacesAux_space, splitSpacesAux_space, List.tail_cons,
        List.count_cons_of_ne (fun h => cons_SQ_ne_marker x h.symm)]
      have h2 := bash_inner_markers l []
      simp only [List.map_nil, List.flatten_nil] at h2
      exact h2
    · have hsp := enc_no_space shell_t.BASH c hc
      simp only [List.map_cons, List.flatten_cons, List.append_assoc]
      rw [splitSpacesAux_run _ _ _ hsp]
      rw [List.cons_append, ih (x ++ enc shell_t.BASH c) (y ++ [c]),
        splitSpacesAux_other c l y hc]

/-- Under the C-shell dialect every piece of a quoted text starts with a
quote, so none is "--". -/
theorem tcsh_quoted_markers (l : List Char) : ∀ x : List Char,
    (splitSpacesAux ((l.map (enc shell_t.TCSH)).flatten ++ [SQ]) (SQ :: x)).count ['-', '-']
      = 0 := by
  induction l with
  | nil =>
    intro x
    have hs : ¬ (SQ = ' ') := by decide
    simp only [List.map_nil, List.flatten_nil, List.nil_append]
    rw [splitSpacesAux_other SQ [] _ hs, splitSpacesAux_nil]
    exact List.count_eq_zero.2 (by
      simp only [List.mem_singleton, List.cons_append]
      exact fun h => cons_SQ_ne_marker _ h.symm)
  | cons c l ih =>
    intro x
    by_cases hc : c = ' '
    · have he : enc shell_t.TCSH ' ' = [SQ, BS, ' ', SQ] := by decide
      have h1 : ¬ (SQ = ' ') := by decide
      have h2 : ¬ (BS = ' ') := by decide
      rw [hc]
      simp only [List.map_cons, List.flatten_cons, he, List.cons_append, List.nil_append]
      rw [splitSpacesAux_other SQ _ _ h1, splitSpacesAux_other BS _ _ h2, splitSpacesAux_space]
      simp only [List.cons_append]
      rw [List.count_cons_of_ne (fun h => cons_SQ_ne_marker _ h.symm),
        splitSpacesAux_other SQ _ _ h1]
      exact ih []
    · have hsp := enc_no_space shell_t.TCSH c hc
      simp only [List.map_cons, List.flatten_cons, List.append_assoc]
      rw [splitSpacesAux_run _ _ _ hsp, List.cons_append]
      exact ih _

/-- The bare markers of the written form of an argument text. -/
theorem bareMarkers_normalize (cfg : Config) (arg : List Char) :
    bareMarkers (normalize cfg arg) = argMarkers cfg arg := by
  cases hq : cfg.quote with
  | false =>
    rw [normalize_unquoted_aux cfg arg hq]
    simp [argMarkers, hq]
  | true =>
    have hs : ¬ (SQ = ' ') := by decide
    have hn : normalize cfg arg = SQ :: ((arg.map (enc cfg.shell)).flatten ++ [SQ]) := by
      unfold normalize
      rw [normalize_loop_eq]
      simp [hq]
    unfold bareMarkers argMarkers
    rw [hn, splitSpacesAux_other SQ _ _ hs, if_pos hq]
    cases hsh : cfg.shell with
    | BASH => exact bash_quoted_markers arg [] []
    | TCSH => exact tcsh_quoted_markers arg []

theorem bareMarkers_short (c : Char) :
    bareMarkers ['-', c] = if c = '-' then 1 else 0 := by
  have hd : ¬ ('-' = ' ') := by decide
  unfold bareMarkers
  by_cases hc : c = ' '
  · rw [hc]
    decide
  · rw [splitSpacesAux_other '-' _ _ hd, splitSpacesAux_other c _ _ hc, splitSpacesAux_nil]
    by_cases h : c = '-'
    · rw [h]
      decide
    · rw [if_neg h]
      exact List.count_eq_zero.2 (by
        simp only [List.mem_singleton, List.nil_append, List.singleton_append, List.cons.injEq,
          and_true, true_and]
        exact fun e => h e.symm)

/-- The bare markers of the tokens of one record. -/
theorem recordTokens_markers (cfg : Config) (optstr : List Char)
    (longopts : List (Option option)) (r : ScanResult) :
    ((recordTokens cfg optstr longopts r).map bareMarkers).sum
      = resultMarkers cfg optstr longopts r := by
  unfold recordTokens resultMarkers
  by_cases he : isError r = true
  · simp [he]
  · rw [if_neg he, if_neg he]
    by_cases hl : r.opt = LONG_OPT
    · rw [if_pos hl, if_pos hl]
      by_cases ha : entryHasArg longopts r.longindex = 0
      · simp [ha]
      · simp [ha, bareMarkers_normalize]
    · rw [if_neg hl, if_neg hl]
      by_cases hn : r.opt = NON_OPT
      · rw [if_pos hn, if_pos hn]
        simp [bareMarkers_normalize]
      · rw [if_neg hn, if_neg hn]
        by_cases hf : followedByColon optstr (Char.ofNat r.opt) = true
        · simp [hf, bareMarkers_normalize, bareMarkers_short]
        · simp [hf, bareMarkers_short]

theorem results_markers (cfg : Config) (optstr : List Char)
    (longopts : List (Option option)) (results : List ScanResult) :
    (((results.map (recordTokens cfg optstr longopts)).flatten).map bareMarkers).sum
      = (results.map (resultMarkers cfg optstr longopts)).sum := by
  induction results with
  | nil => rfl
  | cons r rest ih =>
    simp only [List.map_cons, List.flatten_cons, List.map_append, List.sum_append, List.sum_cons]
    rw [ih, recordTokens_markers]

theorem sum_eq_zero_iff_forall (f : α → Nat) (l : List α) :
    (l.map f).sum = 0 ↔ ∀ x ∈ l, f x = 0 := by
  induction l with
  | nil => simp
  | cons a l ih =>
    simp only [List.map_cons, List.sum_cons, List.mem_cons, forall_eq_or_imp]
    rw [← ih]
    omega

/-- C9 (amended): with output on, the bare token "--" occurs among the
space-separated tokens of the line once for the marker that the formatter
writes, plus once for every bare "--" piece of a written text: of "--name"
for a long option, of "--" itself for a short option whose letter is a dash,
and of an argument text or parameter as `argMarkers` counts them (with
quoting disabled the pieces "--" of the text, with quoting enabled the
occurrences of " -- " inside the text under the Bourne dialect and none
under the C-shell dialect).  So it occurs exactly once if and only if no
record and no parameter adds such a piece. -/
theorem generate_output_marker_count (cfg : Config) (argv : List (List Char)) (argc : Nat)
    (optstr : List Char) (longopts : List (Option option)) (results : List ScanResult)
    (optind : Nat) (hq : cfg.quiet_output = false) (hargc : argc ≤ argv.length)
    (hp : ∀ r ∈ results, printable longopts r = true) :
    (generate_output cfg argv argc optstr longopts results optind).map
        (fun p => (lineTokens p.1).count ['-', '-'])
      = some (1 + (results.map (resultMarkers cfg optstr longopts)).sum +
          (((argv.take argc).drop optind).map (argMarkers cfg)).sum) ∧
    ((generate_output cfg argv argc optstr longopts results optind).map
        (fun p => (lineTokens p.1).count ['-', '-']) = some 1 ↔
      (∀ r ∈ results, resultMarkers cfg optstr longopts r = 0) ∧
      (∀ arg ∈ (argv.take argc).drop optind, argMarkers cfg arg = 0)) := by
  have hcount : (generate_output cfg argv argc optstr longopts results optind).map
        (fun p => (lineTokens p.1).count ['-', '-'])
      = some (1 + (results.map (resultMarkers cfg optstr longopts)).sum +
          (((argv.take argc).drop optind).map (argMarkers cfg)).sum) := by
    rw [generate_output_eq cfg argv argc optstr longopts results optind hq hargc hp]
    simp only [Option.map_some']
    unfold lineTokens
    rw [List.dropLast_concat, line_eq_tokens]
    have h := count_marker_spaced
      ((results.map (recordTokens cfg optstr longopts)).flatten ++ [['-', '-']] ++
        ((argv.take argc).drop optind).map (normalize cfg)) [] []
    rw [List.nil_append] at h
    rw [h]
    have hb : bareMarkers ['-', '-'] = 1 := by decide
    have hops : ((((argv.take argc).drop optind).map (normalize cfg)).map bareMarkers)
        = ((argv.take argc).drop optind).map (argMarkers cfg) := by
      rw [List.map_map]
      exact List.map_congr_left (fun a _ => bareMarkers_normalize cfg a)
    have h0 : (splitSpacesAux [] []).count ['-', '-'] = 0 := by decide
    simp only [List.map_append, List.sum_append, List.map_cons, List.map_nil, List.sum_cons,
      List.sum_nil, hb, hops, results_markers, h0]
    congr 1
    omega
  refine ⟨hcount, ?_⟩
  rw [hcount, ← sum_eq_zero_iff_forall, ← sum_eq_zero_iff_forall]
  simp only [Option.some.injEq]
  omega

theorem generate_output_marker_count_witness :
    (generate_output Config.initial
        [['g'], ['-', 'a'], ['x', ' ', 'y'], ['-', '-'], ['h', 'e', 'l', 'l', 'o', ' ', 'w'],
          ['-', '-']] 6
        ['+', 'a', ':'] [] [{ opt := 'a'.toNat, optarg := some ['x', ' ', 'y'], longindex := 0 }]
        4).map (fun p => (lineTokens p.1).count ['-', '-']) = some 1 :=
  (generate_output_marker_count Config.initial
      [['g'], ['-', 'a'], ['x', ' ', 'y'], ['-', '-'], ['h', 'e', 'l', 'l', 'o', ' ', 'w'],
        ['-', '-']] 6
      ['+', 'a', ':'] [] [{ opt := 'a'.toNat, optarg := some ['x', ' ', 'y'], longindex := 0 }]
      4 rfl (by decide) (by decide)).2.2 ⟨by decide, by decide⟩

/-! ## Quiet output -/

/-- C11: with `quiet_output` set `generate_output` writes nothing at all and
returns the status of the run on the same input with `quiet_output` clear. -/
theorem generate_output_quiet_output (cfg : Config) (argv : List (List Char)) (argc : Nat)
    (optstr : List Char) (longopts : List (Option option)) (results : List ScanResult)
    (optind : Nat) (hq : cfg.quiet_output = true) (hargc : argc ≤ argv.length)
    (hp : ∀ r ∈ results, printable longopts r = true) :
    ∃ status out2,
      generate_output cfg argv argc optstr longopts results optind = some ([], status) ∧
      generate_output { cfg with quiet_output := false } argv argc optstr longopts results optind
        = some (out2, status) :=
  ⟨statusOf results, _,
    generate_output_quiet cfg argv argc optstr longopts results optind hq,
    generate_output_eq { cfg with quiet_output := false } argv argc optstr longopts results
      optind rfl hargc hp⟩

theorem generate_output_quiet_output_witness :
    ∃ status out2,
      generate_output { Config.initial with quiet_output := true } [['g'], ['x']] 2
          ['+', 'o', ':'] []
          [{ opt := '?'.toNat, optarg := none, longindex := 0 },
           { opt := 'o'.toNat, optarg := some ['v'], longindex := 0 }] 1
        = some ([], status) ∧
      generate_output { { Config.initial with quiet_output := true } with quiet_output := false }
          [['g'], ['x']] 2 ['+', 'o', ':'] []
          [{ opt := '?'.toNat, optarg := none, longindex := 0 },
           { opt := 'o'.toNat, optarg := some ['v'], longindex := 0 }] 1
        = some (out2, status) :=
  generate_output_quiet_output { Config.initial with quiet_output := true } [['g'], ['x']] 2
    ['+', 'o', ':'] []
    [{ opt := '?'.toNat, optarg := none, longindex := 0 },
     { opt := 'o'.toNat, optarg := some ['v'], longindex := 0 }] 1 rfl (by decide) (by decide)

/-! ## The C-shell dialect -/

/-- C12 (counterexample): under the C-shell dialect a newline and a backslash
followed by the letter n are both written as backslash, n inside the quoted
span, so two different texts normalize to the same string. -/
theorem normalize_tcsh_collision :
    normalize { Config.initial with shell := shell_t.TCSH } ['\n']
      = normalize { Config.initial with shell := shell_t.TCSH } [BS, 'n'] ∧
    (['\n'] : List Char) ≠ [BS, 'n'] := by
  decide

theorem shellWordsAux_quoted_tcsh (text : List Char) (hn : '\n' ∉ text) : ∀ (w : List Char),
    shellWordsAux ((text.map (enc shell_t.TCSH)).flatten ++ [SQ]) QState.quoted (some w) []
      = some [w ++ text] := by
  induction text with
  | nil =>
    intro w
    simp [shellWordsAux]
  | cons c rest ih =>
    intro w
    have hc : ¬ (c = '\n') := fun h => hn (by simp [h])
    have ih2 := ih (fun h => hn (by simp [h]))
    by_cases h1 : c = SQ
    · simp [h1, enc, shellWordsAux, ih2, BS_ne_SQ]
    · by_cases h2 : c = '!'
      · simp [h2, enc, shellWordsAux, ih2, BS_ne_SQ, bang_ne_SQ]
      · by_cases h4 : isspace c = true
        · simp [h1, h2, hc, h4, enc, shellWordsAux, ih2, BS_ne_SQ]
        · simp [h1, h2, hc, h4, enc, shellWordsAux, ih2]

/-- C12 (amended): under the C-shell dialect with quoting enabled, a text
without newline is recovered from `normalize text` by quote removal (one
word, equal to the text), and `normalize` is injective on such texts. -/
theorem normalize_tcsh_roundtrip (cfg : Config) (hq : cfg.quote = true)
    (hs : cfg.shell = shell_t.TCSH) :
    (∀ text : List Char, '\n' ∉ text → shellWords (normalize cfg text) = some [text]) ∧
    (∀ t1 t2 : List Char, '\n' ∉ t1 → '\n' ∉ t2 →
      normalize cfg t1 = normalize cfg t2 → t1 = t2) := by
  have hround : ∀ text : List Char, '\n' ∉ text →
      shellWords (normalize cfg text) = some [text] := by
    intro text hn
    unfold shellWords normalize
    rw [normalize_loop_eq, hs]
    simp only [hq, Bool.true_eq_false, if_false, List.append_assoc, List.singleton_append]
    have h := shellWordsAux_quoted_tcsh text hn []
    simp only [List.nil_append] at h
    simp [shellWordsAux, h]
  refine ⟨hround, ?_⟩
  intro t1 t2 h1 h2 heq
  have e1 := hround t1 h1
  have e2 := hround t2 h2
  rw [heq, e2] at e1
  have e3 := Option.some.inj e1
  exact (List.cons.inj e3).1.symm

theorem normalize_tcsh_roundtrip_witness :
    shellWords (normalize { Config.initial with shell := shell_t.TCSH } ['a', ' ', '!', SQ])
      = some [['a', ' ', '!', SQ]] :=
  (normalize_tcsh_roundtrip { Config.initial with shell := shell_t.TCSH } rfl rfl).1
    ['a', ' ', '!', SQ] (by decide)

/-! ## The size of the buffer of normalize -/

theorem enc_length_le (shell : shell_t) (c : Char) : (enc shell c).length ≤ 4 := by
  unfold enc
  cases shell <;> (repeat' split) <;> simp

theorem enc_length_four (shell : shell_t) (c : Char) :
    (enc shell c).length = 4 ↔ expandsToFour shell c = true := by
  unfold enc expandsToFour
  by_cases h1 : c = SQ
  · simp [h1]
  · cases shell with
    | BASH => simp [h1]
    | TCSH =>
      by_cases h2 : c = '!'
      · simp [h2, bang_ne_SQ]
      · by_cases h3 : c = '\n'
        · simp [h3, newline_ne_SQ]
        · by_cases h4 : isspace c = true <;> simp [h1, h2, h3, h4]

theorem flatten_length_le (shell : shell_t) (text : List Char) :
    ((text.map (enc shell)).flatten).length ≤ 4 * text.length ∧
    (((text.map (enc shell)).flatten).length = 4 * text.length ↔
      ∀ c ∈ text, expandsToFour shell c = true) := by
  induction text with
  | nil => simp
  | cons c rest ih =>
    have h1 := enc_length_le shell c
    have h2 := enc_length_four shell c
    obtain ⟨ih1, ih2⟩ := ih
    simp only [List.map_cons, List.flatten_cons, List.length_append, List.length_cons,
      List.mem_cons, forall_eq_or_imp]
    refine ⟨by omega, ?_⟩
    rw [← h2, ← ih2]
    constructor
    · intro h
      constructor <;> omega
    · intro h
      omega

/-- The count of the cells that `normalize` writes: with quoting enabled the
output on a text of n characters has at most 4 * n + 2 characters and the
cells written (the NUL included) are at most 4 * n + 3; the bound is attained
exactly when every character of the text is one that is replaced by four
characters.  This counts cells written, not the cells that the allocation
holds. -/
theorem normalize_length_bound (cfg : Config) (text : List Char) (hq : cfg.quote = true) :
    (normalize cfg text).length ≤ 4 * text.length + 2 ∧
    normalize_cells cfg.shell text = normalize cfg text ++ [NUL] ∧
    (normalize_cells cfg.shell text).length ≤ 4 * text.length + 3 ∧
    ((normalize cfg text).length = 4 * text.length + 2 ↔
      ∀ c ∈ text, expandsToFour cfg.shell c = true) := by
  obtain ⟨h1, h2⟩ := flatten_length_le cfg.shell text
  have hn : normalize cfg text = [SQ] ++ (text.map (enc cfg.shell)).flatten ++ [SQ] := by
    unfold normalize
    rw [normalize_loop_eq]
    simp [hq]
  have hc : normalize_cells cfg.shell text = normalize cfg text ++ [NUL] := by
    unfold normalize_cells
    rw [hn, normalize_loop_eq]
    simp
  have hl : (normalize cfg text).length = ((text.map (enc cfg.shell)).flatten).length + 2 := by
    rw [hn]
    simp only [List.length_append, List.length_cons, List.length_nil]
    omega
  refine ⟨by omega, hc, ?_, ?_⟩
  · rw [hc, List.length_append, List.length_singleton]
    omega
  · rw [← h2]
    omega

theorem normalize_length_bound_witness :
    (normalize Config.initial [SQ, SQ]).length ≤ 4 * [SQ, SQ].length + 2 ∧
    normalize_cells Config.initial.shell [SQ, SQ] = normalize Config.initial [SQ, SQ] ++ [NUL] ∧
    (normalize_cells Config.initial.shell [SQ, SQ]).length ≤ 4 * [SQ, SQ].length + 3 ∧
    ((normalize Config.initial [SQ, SQ]).length = 4 * [SQ, SQ].length + 2 ↔
      ∀ c ∈ [SQ, SQ], expandsToFour Config.initial.shell c = true) :=
  normalize_length_bound Config.initial [SQ, SQ] rfl

theorem enc_length_pos (shell : shell_t) (c : Char) : 1 ≤ (enc shell c).length := by
  unfold enc
  cases shell <;> (repeat' split) <;> simp

theorem normalize_cells_length (shell : shell_t) (text : List Char) :
    (normalize_cells shell text).length = ((text.map (enc shell)).flatten).length + 3 := by
  unfold normalize_cells
  rw [normalize_loop_eq]
  simp only [List.length_append, List.length_cons, List.length_nil]
  omega

/-- C13 (code defect): `normalize` asks `malloc` for 4 * n + 3 bytes, while
the cells it writes are wide characters.  With a `TCHAR` of two bytes or more
the buffer holds fewer cells than are written for the empty text, for every
text of one character, and for every text of single quotes, where the cells
written are as many as the bytes asked for: only a `TCHAR` of one byte makes
the 4 * n + 3 requested units hold the output and its terminator. -/
theorem normalize_buffer_overflow (shell : shell_t) (s n : Nat) (c : Char) :
    normalize_buffer_cells (s + 2) [] < (normalize_cells shell []).length ∧
    normalize_buffer_cells (s + 2) [c] < (normalize_cells shell [c]).length ∧
    normalize_buffer_cells (s + 2) (List.replicate n SQ)
      < (normalize_cells shell (List.replicate n SQ)).length ∧
    (normalize_cells shell (List.replicate n SQ)).length
      = normalize_malloc_bytes (List.replicate n SQ) ∧
    normalize_buffer_cells 2 ['a'] = 3 ∧
    normalize_cells shell ['a'] = [SQ, 'a', SQ, NUL] := by
  have hdiv : ∀ m : Nat, 0 < m → m / (s + 2) < m := fun m hm =>
    Nat.div_lt_self hm (by omega)
  have hle : ∀ m : Nat, m / (s + 2) ≤ m / 2 := fun m =>
    Nat.div_le_div_left (by omega) (by omega)
  have hrep : (normalize_cells shell (List.replicate n SQ)).length = 4 * n + 3 := by
    rw [normalize_cells_length]
    have h := (flatten_length_le shell (List.replicate n SQ)).2.2 (by
      intro x hx
      rw [List.eq_of_mem_replicate hx]
      cases shell <;> simp [expandsToFour])
    rw [h, List.length_replicate]
  refine ⟨?_, ?_, ?_, ?_, by decide, ?_⟩
  · rw [normalize_cells_length]
    have := hle (normalize_malloc_bytes [])
    simp only [normalize_buffer_cells, normalize_malloc_bytes, List.length_nil, List.map_nil,
      List.flatten_nil] at *
    omega
  · rw [normalize_cells_length]
    have h1 := enc_length_pos shell c
    have := hle (normalize_malloc_bytes [c])
    simp only [normalize_buffer_cells, normalize_malloc_bytes, List.length_cons,
      List.length_nil, List.map_cons, List.map_nil, List.flatten_cons, List.flatten_nil,
      List.length_append] at *
    omega
  · rw [hrep]
    have := hdiv (normalize_malloc_bytes (List.replicate n SQ)) (by
      unfold normalize_malloc_bytes
      omega)
    simp only [normalize_buffer_cells, normalize_malloc_bytes, List.length_replicate] at *
    omega
  · rw [hrep]
    simp only [normalize_malloc_bytes, List.length_replicate]
    omega
  · cases shell <;> decide

/-! ## Append, reset and invariant of the long option table -/

theorem get_set_set {α : Type} (l : List α) (k : Nat) (x y : α) (hk : k + 1 < l.length) :
    ((l.set (k + 1) y).set k x).get? (k + 1) = some y := by
  induction l generalizing k with
  | nil => simp at hk
  | cons a l ih =>
    cases k with
    | zero =>
      cases l with
      | nil => simp at hk
      | cons b l2 => simp
    | succ k =>
      have hk2 : k + 1 < l.length := by simpa using hk
      have h := ih k hk2
      simpa using h

/-- After `add_longopt` with a name, the terminator is in the cell that the
old count designates, the count is one more and the length is unchanged or
ten more. -/
theorem add_longopt_some_terminator (st : LongOpts) (name : List Char) (has_arg : Nat)
    (hwf : st.wf) :
    (add_longopt st (some name) has_arg).long_options.get? st.long_options_nr
      = some (some option.terminator) ∧
    (add_longopt st (some name) has_arg).long_options_nr = st.long_options_nr + 1 ∧
    ((add_longopt st (some name) has_arg).long_options_length = st.long_options_length ∨
     (add_longopt st (some name) has_arg).long_options_length
       = st.long_options_length + LONG_OPTIONS_INCR) := by
  obtain ⟨hlen, h1, h2⟩ := hwf
  obtain ⟨k, hk⟩ : ∃ k, st.long_options_nr = k + 1 := ⟨st.long_options_nr - 1, by omega⟩
  by_cases hfull : st.long_options_nr = st.long_options_length
  · have hkl : k + 1 < (st.long_options ++ List.replicate LONG_OPTIONS_INCR none).length := by
      simp only [List.length_append, List.length_replicate, LONG_OPTIONS_INCR]
      omega
    have ht := get_set_set (st.long_options ++ List.replicate LONG_OPTIONS_INCR none) k
      (some { name := some name, has_arg := has_arg, flag := none, val := LONG_OPT })
      (some option.terminator) hkl
    refine ⟨?_, ?_, ?_⟩
    · simp only [add_longopt, Option.isNone_some, Bool.false_eq_true, if_false, hfull, if_true,
        Option.isSome_some]
      rw [← hfull, hk]
      simp only [Nat.add_sub_cancel, ne_eq, Nat.add_one_ne_zero, not_false_eq_true, and_self,
        if_true]
      exact ht
    · simp [add_longopt, hfull]
    · right
      simp [add_longopt, hfull]
  · have hkl : k + 1 < st.long_options.length := by omega
    have ht := get_set_set st.long_options k
      (some { name := some name, has_arg := has_arg, flag := none, val := LONG_OPT })
      (some option.terminator) hkl
    refine ⟨?_, ?_, ?_⟩
    · simp only [add_longopt, Option.isNone_some, Bool.false_eq_true, if_false, hfull,
        Option.isSome_some]
      rw [hk]
      simp only [Nat.add_sub_cancel, ne_eq, Nat.add_one_ne_zero, not_false_eq_true, and_self,
        if_true]
      exact ht
    · simp [add_longopt, hfull]
    · left
      simp [add_longopt, hfull]

/-- C14: on an initialised table `add_longopt` with a non-null name adds
exactly one descriptor, which is last and holds a copy of the name, the given
arity, a null flag and `LONG_OPT`; every descriptor that was in the table is
unchanged at its index, also when the array grows. -/
theorem add_longopt_stable (st : LongOpts) (name : List Char) (has_arg : Nat) (hwf : st.wf) :
    (descriptors (add_longopt st (some name) has_arg)).length = (descriptors st).length + 1 ∧
    (descriptors (add_longopt st (some name) has_arg)).getLast?
      = some (some { name := some name, has_arg := has_arg, flag := none, val := LONG_OPT }) ∧
    (∀ i, i < (descriptors st).length →
      (descriptors (add_longopt st (some name) has_arg)).get? i = (descriptors st).get? i) ∧
    (add_longopt st (some name) has_arg).wf := by
  obtain ⟨h1, h2⟩ := add_longopt_some st name has_arg hwf
  refine ⟨?_, ?_, ?_, h1⟩
  · rw [h2]
    simp
  · rw [h2]
    simp [descriptor]
  · intro i hi
    rw [h2]
    simp only [List.get?_eq_getElem?]
    exact List.getElem?_append_left hi

theorem add_longopt_stable_witness :
    (descriptors (add_longopt
      { long_options := List.replicate 9 (descriptor ['a'] 0) ++ [some option.terminator],
        long_options_length := 10, long_options_nr := 10 } (some ['z']) 1)).length
      = (descriptors
      { long_options := List.replicate 9 (descriptor ['a'] 0) ++ [some option.terminator],
        long_options_length := 10, long_options_nr := 10 }).length + 1 ∧
    (add_longopt
      { long_options := List.replicate 9 (descriptor ['a'] 0) ++ [some option.terminator],
        long_options_length := 10, long_options_nr := 10 } (some ['z']) 1).long_options_length
      = 20 :=
  ⟨(add_longopt_stable
      { long_options := List.replicate 9 (descriptor ['a'] 0) ++ [some option.terminator],
        long_options_length := 10, long_options_nr := 10 } ['z'] 1 (by decide)).1,
    by decide⟩

theorem add_longopt_none (st : LongOpts) (has_arg : Nat) :
    add_longopt st none has_arg =
      { long_options := some option.terminator :: List.replicate 9 none,
        long_options_length := 10, long_options_nr := 1 } := by
  simp [add_longopt, LongOpts.initial, LONG_OPTIONS_INCR, List.replicate]

/-- C15: `init_longopt()` leaves the table with no descriptor and only the
all-null terminator, whatever the table held before. -/
theorem init_longopt_reset (st : LongOpts) :
    descriptors (init_longopt st) = [] ∧
    (init_longopt st).long_options_nr = 1 ∧
    (init_longopt st).long_options.get? 0 = some (some option.terminator) ∧
    (init_longopt st).wf := by
  unfold init_longopt
  rw [add_longopt_none]
  decide

theorem isDescriptor_descriptor (name : List Char) (has_arg : Nat) :
    isDescriptor (descriptor name has_arg) = true := by
  simp [isDescriptor, descriptor]

theorem add_longopt_inv (st : LongOpts) (name : Option (List Char)) (has_arg : Nat)
    (hinv : st.inv) : (add_longopt st name has_arg).inv := by
  cases name with
  | none =>
    rw [add_longopt_none]
    decide
  | some nm =>
    obtain ⟨hwf, hmod, _, hdesc⟩ := hinv
    obtain ⟨h1, h2⟩ := add_longopt_some st nm has_arg hwf
    obtain ⟨h3, h4, h5⟩ := add_longopt_some_terminator st nm has_arg hwf
    refine ⟨h1, ?_, ?_, ?_⟩
    · rcases h5 with h | h
      · rw [h]
        exact hmod
      · rw [h]
        simp only [LONG_OPTIONS_INCR] at hmod ⊢
        omega
    · rw [h4, Nat.add_sub_cancel]
      exact h3
    · intro cell hcell
      rw [h2] at hcell
      rcases List.mem_append.1 hcell with h | h
      · exact hdesc cell h
      · rw [List.mem_singleton.1 h]
        exact isDescriptor_descriptor nm has_arg

theorem add_long_options_loop_inv (fuel : Nat) : ∀ (mem : List Char) (tokptr : Option Nat)
    (save : Nat) (st st2 : LongOpts), st.inv →
    add_long_options_loop fuel mem tokptr save st = Outcome.ok st2 → st2.inv := by
  induction fuel with
  | zero =>
    intro mem tokptr save st st2 hinv h
    cases tokptr with
    | none =>
      rw [loop_none] at h
      rw [← Outcome.ok.inj h]
      exact hinv
    | some t => simp [add_long_options_loop] at h
  | succ fuel ih =>
    intro mem tokptr save st st2 hinv h
    cases tokptr with
    | none =>
      rw [loop_none] at h
      rw [← Outcome.ok.inj h]
      exact hinv
    | some t =>
      rw [add_long_options_loop] at h
      split at h
      · split at h
        · split at h
          · exact Outcome.noConfusion h
          · simp only [] at h
            split at h
            · split at h
              · simp [parse_error] at h
              · exact ih _ _ _ _ _ (add_longopt_inv st _ _ hinv) h
            · split at h
              · simp [parse_error] at h
              · exact ih _ _ _ _ _ (add_longopt_inv st _ _ hinv) h
        · exact ih _ _ _ _ _ (add_longopt_inv st _ _ hinv) h
      · exact ih _ _ _ _ _ hinv h

theorem runCalls_inv (calls : List TableCall) : ∀ (st st2 : LongOpts), st.inv →
    runCalls calls st = Outcome.ok st2 → st2.inv := by
  induction calls with
  | nil =>
    intro st st2 hinv h
    rw [← Outcome.ok.inj h]
    exact hinv
  | cons c rest ih =>
    intro st st2 hinv h
    cases c with
    | longopt name has_arg =>
      exact ih _ _ (add_longopt_inv st name has_arg hinv) h
    | long_options options =>
      rw [runCalls] at h
      split at h
      · next st3 h3 =>
        exact ih _ _ (add_long_options_loop_inv _ _ _ _ _ _ hinv h3) h
      · exact Outcome.noConfusion h
      · exact Outcome.noConfusion h
      · exact Outcome.noConfusion h

/-- C18: after `init_longopt()`, whenever a sequence of calls of `add_longopt`
and `add_long_options` has returned, the table satisfies the invariant:
`1 ≤ long_options_nr ≤ long_options_length`, the length is a multiple of 10,
the cell at `long_options_nr - 1` is the all-null terminator and every cell
before it has a non-null name, a null flag and the value `LONG_OPT`. -/
theorem table_invariant (calls : List TableCall) (st0 st : LongOpts)
    (h : runCalls calls (init_longopt st0) = Outcome.ok st) : st.inv := by
  have h0 : (init_longopt st0).inv := by
    unfold init_longopt
    rw [add_longopt_none]
    decide
  exact runCalls_inv calls _ _ h0 h

theorem table_invariant_witness :
    runCalls [TableCall.long_options ['f', 'o', 'o', ',', 'b', ':'],
        TableCall.longopt (some ['x']) 2] (init_longopt LongOpts.initial)
      = Outcome.ok
        { long_options := [descriptor ['f', 'o', 'o'] 0, descriptor ['b'] 1, descriptor ['x'] 2,
            some option.terminator] ++ List.replicate 6 none,
          long_options_length := 10, long_options_nr := 4 } ∧
    LongOpts.inv
        { long_options := [descriptor ['f', 'o', 'o'] 0, descriptor ['b'] 1, descriptor ['x'] 2,
            some option.terminator] ++ List.replicate 6 none,
          long_options_length := 10, long_options_nr := 4 } :=
  ⟨by decide,
    table_invariant [TableCall.long_options ['f', 'o', 'o', ',', 'b', ':'],
        TableCall.longopt (some ['x']) 2] LongOpts.initial _ (by decide)⟩

/-! ## The cells touched by the arity suffix check -/

/-- C19 (failing input): on the string "a,:" the second token is ":" and has
one character; the arity suffix check reads its cell 0 and then the cell at
position -1, which lies before the token. -/
theorem suffix_check_reads_before_token :
    add_long_options_cells ['a', ',', ':'] = [(1, [0]), (1, [0, -1, 0])] ∧
    ¬ (∀ e ∈ add_long_options_cells ['a', ',', ':'], ∀ p ∈ e.2, 0 ≤ p ∧ p < (e.1 : Int)) := by
  decide

/-! ## Accumulation of the long options over several calls -/

theorem tokensAux_comma (s1 s2 : List Char) : ∀ cur : List Char,
    tokensAux (s1 ++ ',' :: s2) cur = tokensAux s1 cur ++ tokens s2 := by
  induction s1 with
  | nil =>
    intro cur
    have hd : isDelim ',' = true := by decide
    by_cases hc : cur = [] <;> simp [tokensAux, tokens, hd, hc]
  | cons c rest ih =>
    intro cur
    by_cases hd : isDelim c = true
    · by_cases hc : cur = [] <;> simp [tokensAux, hd, hc, ih]
    · simp [tokensAux, hd, ih]

theorem tokens_comma (s1 s2 : List Char) :
    tokens (s1 ++ ',' :: s2) = tokens s1 ++ tokens s2 := by
  unfold tokens
  rw [tokensAux_comma]
  rfl

theorem colonFirst_comma (s1 s2 : List Char) :
    colonFirst (s1 ++ ',' :: s2) = colonFirst s1 := by
  have hd : isDelim ',' = true := by decide
  have hc : ¬ (',' = ':') := by decide
  cases s1 with
  | nil => cases s2 <;> simp [colonFirst, hc]
  | cons c r =>
    cases r with
    | nil => simp [colonFirst, hd]
    | cons d r2 => simp [colonFirst]

theorem tokensFold_append (a b : List (List Char)) : ∀ (st st1 : LongOpts),
    tokensFold a st = Outcome.ok st1 → tokensFold (a ++ b) st = tokensFold b st1 := by
  induction a with
  | nil =>
    intro st st1 h
    rw [← Outcome.ok.inj h]
    rfl
  | cons t ts ih =>
    intro st st1 h
    by_cases he : emptyName t = true
    · simp [tokensFold, he] at h
    · simp only [tokensFold, he, if_false, List.cons_append, Bool.false_eq_true] at h ⊢
      exact ih _ _ h

theorem tokensFold_descriptors (ts : List (List Char)) (st st1 : LongOpts) (hwf : st.wf)
    (h : tokensFold ts st = Outcome.ok st1) :
    st1.wf ∧ descriptors st1 = descriptors st ++ ts.map tokenDescriptor := by
  by_cases hall : ∀ t ∈ ts, emptyName t = false
  · obtain ⟨st2, h1, h2, h3⟩ := tokensFold_ok ts st hwf hall
    rw [h1] at h
    rw [← Outcome.ok.inj h]
    exact ⟨h2, h3⟩
  · have hex : ∃ t ∈ ts, emptyName t = true := by
      by_contra hn
      apply hall
      intro t ht
      by_contra hne
      exact hn ⟨t, ht, by simpa using hne⟩
    rw [tokensFold_exit ts st hex] at h
    exact Outcome.noConfusion h

theorem add_long_options_ok (s : List Char) (st st1 : LongOpts) (hs : ∀ c ∈ s, c ≠ NUL)
    (h : add_long_options s st = Outcome.ok st1) :
    colonFirst s = false ∧ tokensFold (tokens s) st = Outcome.ok st1 := by
  rw [add_long_options_eq s st hs] at h
  by_cases hcf : colonFirst s = true
  · rw [if_pos hcf] at h
    exact Outcome.noConfusion h
  · rw [if_neg hcf] at h
    exact ⟨by simpa using hcf, h⟩

/-- C20: when `add_long_options` returns on `s1` and then on `s2`, one call on
`s1`, a comma and `s2` from the same table returns the same table, whose
descriptors are those at the start followed by those of `s1` and those of
`s2`; a string without token leaves the table unchanged. -/
theorem add_long_options_accumulate (s1 s2 : List Char) (st st1 st2 : LongOpts)
    (hs1 : ∀ c ∈ s1, c ≠ NUL) (hs2 : ∀ c ∈ s2, c ≠ NUL)
    (h1 : add_long_options s1 st = Outcome.ok st1)
    (h2 : add_long_options s2 st1 = Outcome.ok st2) :
    add_long_options (s1 ++ ',' :: s2) st = Outcome.ok st2 ∧
    (st.wf → descriptors st2 = descriptors st ++ (tokens s1).map tokenDescriptor ++
      (tokens s2).map tokenDescriptor) ∧
    (∀ s : List Char, (∀ c ∈ s, c ≠ NUL) → tokens s = [] →
      add_long_options s st = Outcome.ok st) := by
  obtain ⟨c1, f1⟩ := add_long_options_ok s1 st st1 hs1 h1
  obtain ⟨_, f2⟩ := add_long_options_ok s2 st1 st2 hs2 h2
  have hs : ∀ c ∈ s1 ++ ',' :: s2, c ≠ NUL := by
    intro c hc
    rcases List.mem_append.1 hc with h | h
    · exact hs1 c h
    · rcases List.mem_cons.1 h with h | h
      · rw [h]
        decide
      · exact hs2 c h
  refine ⟨?_, ?_, ?_⟩
  · rw [add_long_options_eq _ st hs, colonFirst_comma, c1, tokens_comma,
      tokensFold_append _ _ st st1 f1, f2]
    simp
  · intro hwf
    obtain ⟨hwf1, d1⟩ := tokensFold_descriptors _ st st1 hwf f1
    obtain ⟨_, d2⟩ := tokensFold_descriptors _ st1 st2 hwf1 f2
    rw [d2, d1]
  · intro s hs0 ht
    rw [add_long_options_eq s st hs0, ht]
    by_cases hcf : colonFirst s = true
    · obtain ⟨ts, hts⟩ := colonFirst_token s hcf
      rw [ht] at hts
      exact absurd hts (by simp)
    · rw [if_neg hcf]
      rfl

theorem add_long_options_accumulate_witness :
    add_long_options (['a', ':'] ++ ',' :: ['b', ' ', 'c', ':', ':'])
        (init_longopt LongOpts.initial)
      = Outcome.ok
        { long_options := [descriptor ['a'] 1, descriptor ['b'] 0, descriptor ['c'] 2,
            some option.terminator] ++ List.replicate 6 none,
          long_options_length := 10, long_options_nr := 4 } :=
  (add_long_options_accumulate ['a', ':'] ['b', ' ', 'c', ':', ':']
    (init_longopt LongOpts.initial)
    { long_options := [descriptor ['a'] 1, some option.terminator] ++ List.replicate 8 none,
      long_options_length := 10, long_options_nr := 2 }
    { long_options := [descriptor ['a'] 1, descriptor ['b'] 0, descriptor ['c'] 2,
        some option.terminator] ++ List.replicate 6 none,
      long_options_length := 10, long_options_nr := 4 }
    (by decide) (by decide) (by decide) (by decide)).1

/-! ## The short option string that wmain hands to generate_output -/

/-- C16 (counterexample): for the command line `getopt ab -a` (first argument
not starting with a dash) and for `getopt -o ab -- -a` (normal path) `wmain`
calls `generate_output` with the short option string "ab", whose first
character is not '+'. -/
theorem wmain_optstr_without_plus :
    wmain false [['g'], ['a', 'b'], ['-', 'a']] 3 [] 1
      = Outcome.ok
        { cfg := { Config.initial with quote := false }, alternative := false,
          argv := [['g'], ['-', 'a']], argc := 2, optstr := ['a', 'b'],
          longopts := (init_longopt LongOpts.initial).long_options } ∧
    wmain false [['g'], ['-', 'o'], ['a', 'b'], ['-', '-'], ['-', 'a']] 5
        [{ opt := 'o'.toNat, optarg := some ['a', 'b'], longindex := 0 }] 4
      = Outcome.ok
        { cfg := Config.initial, alternative := false,
          argv := [['g'], ['-', 'a']], argc := 2, optstr := ['a', 'b'],
          longopts := (init_longopt LongOpts.initial).long_options } ∧
    (['a', 'b'] : List Char).head? ≠ some '+' := by
  decide

theorem drop_takeWhile_length (q : Char → Bool) (l : List Char) :
    l.drop (l.takeWhile q).length = l.dropWhile q := by
  induction l with
  | nil => rfl
  | cons a l ih =>
    by_cases h : q a = true
    · simp [List.takeWhile_cons, List.dropWhile_cons, h, ih]
    · simp [List.takeWhile_cons, List.dropWhile_cons, h]

theorem head_dropWhile_dashPlus (l : List Char) :
    (l.dropWhile isDashPlus).head? ≠ some '+' ∧ (l.dropWhile isDashPlus).head? ≠ some '-' := by
  induction l with
  | nil => simp
  | cons a l ih =>
    by_cases h : isDashPlus a = true
    · simpa [List.dropWhile_cons, h] using ih
    · have h1 : ¬ (a = '+') := by
        intro e
        rw [e] at h
        exact h (by decide)
      have h2 : ¬ (a = '-') := by
        intro e
        rw [e] at h
        exact h (by decide)
      simp [List.dropWhile_cons, h, h1, h2]

/-- The `switch` of `wmain` leaves `optstr` as it is, except for the option
-o, where it becomes the argument of the option. -/
theorem wmain_switch_optstr (r : ScanResult) (s s2 : WmainState)
    (h : wmain_switch r s = Outcome.ok s2) :
    (r.opt = 'o'.toNat → ∃ arg, r.optarg = some arg ∧ s2.optstr = some arg) ∧
    (r.opt ≠ 'o'.toNat → s2.optstr = s.optstr) := by
  unfold wmain_switch at h
  by_cases c1 : r.opt = 'a'.toNat
  · rw [if_pos c1] at h
    have c3 : r.opt ≠ 'o'.toNat := by
      rw [c1]
      decide
    refine ⟨fun e => absurd e c3, fun _ => ?_⟩
    rw [← Outcome.ok.inj h]
  rw [if_neg c1] at h
  by_cases c2 : r.opt = 'h'.toNat
  · rw [if_pos c2] at h
    exact Outcome.noConfusion h
  rw [if_neg c2] at h
  by_cases c3 : r.opt = 'o'.toNat
  · rw [if_pos c3] at h
    refine ⟨fun _ => ?_, fun e => absurd c3 e⟩
    cases ho : r.optarg with
    | none =>
      rw [ho] at h
      exact Outcome.noConfusion h
    | some arg =>
      rw [ho] at h
      rw [← Outcome.ok.inj h]
      exact ⟨arg, rfl, rfl⟩
  rw [if_neg c3] at h
  by_cases c4 : r.opt = 'l'.toNat
  · rw [if_pos c4] at h
    refine ⟨fun e => absurd e c3, fun _ => ?_⟩
    cases ho : r.optarg with
    | none =>
      rw [ho] at h
      exact Outcome.noConfusion h
    | some arg =>
      rw [ho] at h
      simp only [] at h
      cases ha : add_long_options arg s.table with
      | ok t =>
        rw [ha] at h
        rw [← Outcome.ok.inj h]
      | exit code =>
        rw [ha] at h
        exact Outcome.noConfusion h
      | undefined =>
        rw [ha] at h
        exact Outcome.noConfusion h
      | out_of_fuel =>
        rw [ha] at h
        exact Outcome.noConfusion h
  rw [if_neg c4] at h
  by_cases c5 : r.opt = 'n'.toNat
  · rw [if_pos c5] at h
    refine ⟨fun e => absurd e c3, fun _ => ?_⟩
    cases ho : r.optarg with
    | none =>
      rw [ho] at h
      exact Outcome.noConfusion h
    | some arg =>
      rw [ho] at h
      rw [← Outcome.ok.inj h]
  rw [if_neg c5] at h
  by_cases c6 : r.opt = 'q'.toNat
  · rw [if_pos c6] at h
    refine ⟨fun e => absurd e c3, fun _ => ?_⟩
    rw [← Outcome.ok.inj h]
  rw [if_neg c6] at h
  by_cases c7 : r.opt = 'Q'.toNat
  · rw [if_pos c7] at h
    refine ⟨fun e => absurd e c3, fun _ => ?_⟩
    rw [← Outcome.ok.inj h]
  rw [if_neg c7] at h
  by_cases c8 : r.opt = 's'.toNat
  · rw [if_pos c8] at h
    refine ⟨fun e => absurd e c3, fun _ => ?_⟩
    cases ho : r.optarg with
    | none =>
      rw [ho] at h
      exact Outcome.noConfusion h
    | some arg =>
      rw [ho] at h
      simp only [] at h
      cases ha : set_shell s.cfg arg with
      | ok t =>
        rw [ha] at h
        rw [← Outcome.ok.inj h]
      | exit code =>
        rw [ha] at h
        exact Outcome.noConfusion h
      | undefined =>
        rw [ha] at h
        exact Outcome.noConfusion h
      | out_of_fuel =>
        rw [ha] at h
        exact Outcome.noConfusion h
  rw [if_neg c8] at h
  by_cases c9 : r.opt = 'T'.toNat
  · rw [if_pos c9] at h
    exact Outcome.noConfusion h
  rw [if_neg c9] at h
  by_cases c10 : r.opt = 'u'.toNat
  · rw [if_pos c10] at h
    refine ⟨fun e => absurd e c3, fun _ => ?_⟩
    rw [← Outcome.ok.inj h]
  rw [if_neg c10] at h
  by_cases c11 : r.opt = 'V'.toNat
  · rw [if_pos c11] at h
    exact Outcome.noConfusion h
  rw [if_neg c11] at h
  by_cases c12 : r.opt = '?'.toNat ∨ r.opt = ':'.toNat
  · rw [if_pos c12] at h
    exact Outcome.noConfusion h
  rw [if_neg c12] at h
  exact Outcome.noConfusion h

theorem wmain_call_optstr (argv : List (List Char)) (argc optind : Nat) (optstr : List Char)
    (s : WmainState) (c : GenCall) (h : wmain_call argv argc optind optstr s = Outcome.ok c) :
    c.optstr = optstr := by
  unfold wmain_call at h
  split at h
  · exact Outcome.noConfusion h
  · split at h
    · rw [← Outcome.ok.inj h]
    · exact Outcome.noConfusion h

theorem getLast?_cons_eq (a : ScanResult) (l : List ScanResult) :
    (a :: l).getLast? = (match l.getLast? with
      | some x => some x
      | none => some a) := by
  cases l with
  | nil => rfl
  | cons b t =>
    rw [List.getLast?_cons_cons]
    cases h : (b :: t).getLast? with
    | none => simp at h
    | some x => rfl

/-- On the normal path the short option string of the call is the argument
of the last -o option; without an -o option it is the value that `optstr`
had before the loop or, when that is NULL, the parameter `argv[optind]`. -/
theorem wmain_loop_optstr (argv : List (List Char)) (argc optind : Nat) :
    ∀ (rs : List ScanResult) (s : WmainState) (c : GenCall),
    wmain_loop argv argc optind rs s = Outcome.ok c →
    (match (rs.filter (fun r => decide (r.opt = 'o'.toNat))).getLast? with
      | some r => r.optarg = some c.optstr
      | none =>
        match s.optstr with
        | some x => c.optstr = x
        | none => optind < argc ∧ argv.get? optind = some c.optstr) := by
  intro rs
  induction rs with
  | nil =>
    intro s c h
    unfold wmain_loop wmain_finish at h
    simp only [List.filter_nil, List.getLast?_nil]
    split at h
    · next o ho =>
      exact wmain_call_optstr _ _ _ _ _ _ h
    · next ho =>
      split at h
      · exact Outcome.noConfusion h
      · next hlt =>
        split at h
        · next arg harg =>
          rw [wmain_call_optstr _ _ _ _ _ _ h]
          exact ⟨by omega, harg⟩
        · exact Outcome.noConfusion h
  | cons r rest ih =>
    intro s c h
    rw [wmain_loop] at h
    split at h
    · next s2 hsw =>
      have hrest := ih s2 c h
      obtain ⟨ho, hno⟩ := wmain_switch_optstr r s s2 hsw
      by_cases c3 : r.opt = 'o'.toNat
      · obtain ⟨arg, harg, hs2⟩ := ho c3
        rw [List.filter_cons_of_pos (by simpa using c3), getLast?_cons_eq]
        cases hl : (rest.filter (fun r => decide (r.opt = 'o'.toNat))).getLast? with
        | some x =>
          rw [hl] at hrest
          exact hrest
        | none =>
          rw [hl, hs2] at hrest
          simp only [] at hrest
          simp only []
          rw [harg, hrest]
      · rw [List.filter_cons_of_neg (by simpa using c3)]
        rw [hno c3] at hrest
        exact hrest
    · exact Outcome.noConfusion h
    · exact Outcome.noConfusion h
    · exact Outcome.noConfusion h

/-- C16 (amended): the short option string that begins with '+' is the one
with which `wmain` scans the options of getopt(1) itself.  The string handed
to `generate_output` is the one the user gave.  When the first argument does
not start with a dash or GETOPT_COMPATIBLE is set, it is the first argument
without its leading '-' and '+' characters, which never begins with '+'.
Otherwise, when the scanner returned an -o option, it is the argument of the
last -o option, whatever `argv[optind]` is; and only when there is no -o
option it is the parameter `argv[optind]`, which then exists, unchanged. -/
theorem wmain_optstr (compatible : Bool) (argv : List (List Char)) (argc : Nat)
    (results : List ScanResult) (optind : Nat) (c : GenCall)
    (h : wmain compatible argv argc results optind = Outcome.ok c) :
    shortopts.head? = some '+' ∧
    ∃ argv1, argv.get? 1 = some argv1 ∧
      (if argv1.headD NUL ≠ '-' ∨ compatible = true then
        c.optstr = argv1.dropWhile isDashPlus ∧ c.optstr.head? ≠ some '+'
      else
        match (results.filter (fun r => decide (r.opt = 'o'.toNat))).getLast? with
        | some r => r.optarg = some c.optstr
        | none => optind < argc ∧ argv.get? optind = some c.optstr) := by
  refine ⟨rfl, ?_⟩
  unfold wmain at h
  split at h
  · split at h
    · exact Outcome.noConfusion h
    · exact Outcome.noConfusion h
  · split at h
    · next argv0 argv1 h0 h1 =>
      refine ⟨argv1, h1, ?_⟩
      split at h
      · next hcond =>
        rw [if_pos hcond]
        constructor
        · rw [← Outcome.ok.inj h]
          exact drop_takeWhile_length isDashPlus argv1
        · rw [← Outcome.ok.inj h]
          simp only []
          rw [drop_takeWhile_length]
          exact (head_dropWhile_dashPlus argv1).1
      · next hcond =>
        rw [if_neg hcond]
        exact wmain_loop_optstr argv argc optind results _ c h
    · exact Outcome.noConfusion h

theorem wmain_optstr_witness :
    (wmain false [['g'], ['-', 'o'], ['a', 'b'], ['-', 'o'], ['c', ':'], ['-', '-'], ['x', 'y']] 7
        [{ opt := 'o'.toNat, optarg := some ['a', 'b'], longindex := 0 },
         { opt := 'o'.toNat, optarg := some ['c', ':'], longindex := 0 }] 6
      = Outcome.ok
        { cfg := Config.initial, alternative := false,
          argv := [['g'], ['x', 'y']], argc := 2, optstr := ['c', ':'],
          longopts := (init_longopt LongOpts.initial).long_options }) ∧
    (shortopts.head? = some '+' ∧
      ∃ argv1,
        [['g'], ['-', 'o'], ['a', 'b'], ['-', 'o'], ['c', ':'], ['-', '-'], ['x', 'y']].get? 1
          = some argv1 ∧
        (if argv1.headD NUL ≠ '-' ∨ false = true then
          (['c', ':'] : List Char) = argv1.dropWhile isDashPlus ∧
            (['c', ':'] : List Char).head? ≠ some '+'
        else
          match ([{ opt := 'o'.toNat, optarg := some ['a', 'b'], longindex := 0 },
              { opt := 'o'.toNat, optarg := some ['c', ':'], longindex := 0 }].filter
                (fun r : ScanResult => decide (r.opt = 'o'.toNat))).getLast? with
          | some r => r.optarg = some ['c', ':']
          | none =>
            6 < 7 ∧
            [['g'], ['-', 'o'], ['a', 'b'], ['-', 'o'], ['c', ':'], ['-', '-'],
              ['x', 'y']].get? 6 = some ['c', ':'])) ∧
    (shortopts.head? = some '+' ∧
      ∃ argv1,
        [['g'], ['-', 'q'], ['a', 'b'], ['-', 'a']].get? 1 = some argv1 ∧
        (if argv1.headD NUL ≠ '-' ∨ false = true then
          (['a', 'b'] : List Char) = argv1.dropWhile isDashPlus ∧
            (['a', 'b'] : List Char).head? ≠ some '+'
        else
          match ([{ opt := 'q'.toNat, optarg := none, longindex := 0 }].filter
                (fun r : ScanResult => decide (r.opt = 'o'.toNat))).getLast? with
          | some r => r.optarg = some ['a', 'b']
          | none =>
            2 < 4 ∧ [['g'], ['-', 'q'], ['a', 'b'], ['-', 'a']].get? 2 = some ['a', 'b'])) ∧
    (shortopts.head? = some '+' ∧
      ∃ argv1,
        [['g'], ['-', '+', 'a', 'b'], ['-', 'a']].get? 1 = some argv1 ∧
        (if argv1.headD NUL ≠ '-' ∨ true = true then
          (['a', 'b'] : List Char) = argv1.dropWhile isDashPlus ∧
            (['a', 'b'] : List Char).head? ≠ some '+'
        else
          match (([] : List ScanResult).filter
                (fun r : ScanResult => decide (r.opt = 'o'.toNat))).getLast? with
          | some r => r.optarg = some ['a', 'b']
          | none => 1 < 3 ∧ [['g'], ['-', '+', 'a', 'b'], ['-', 'a']].get? 1 = some ['a', 'b'])) :=
  ⟨by decide,
    wmain_optstr false
      [['g'], ['-', 'o'], ['a', 'b'], ['-', 'o'], ['c', ':'], ['-', '-'], ['x', 'y']] 7
      [{ opt := 'o'.toNat, optarg := some ['a', 'b'], longindex := 0 },
       { opt := 'o'.toNat, optarg := some ['c', ':'], longindex := 0 }] 6
      { cfg := Config.initial, alternative := false,
        argv := [['g'], ['x', 'y']], argc := 2, optstr := ['c', ':'],
        longopts := (init_longopt LongOpts.initial).long_options } (by decide),
    wmain_optstr false [['g'], ['-', 'q'], ['a', 'b'], ['-', 'a']] 4
      [{ opt := 'q'.toNat, optarg := none, longindex := 0 }] 2
      { cfg := { Config.initial with quiet_errors := true }, alternative := false,
        argv := [['g'], ['-', 'a']], argc := 2, optstr := ['a', 'b'],
        longopts := (init_longopt LongOpts.initial).long_options } (by decide),
    wmain_optstr true [['g'], ['-', '+', 'a', 'b'], ['-', 'a']] 3 [] 1
      { cfg := { Config.initial with quote := false }, alternative := false,
        argv := [['g'], ['-', 'a']], argc := 2, optstr := ['a', 'b'],
        longopts := (init_longopt LongOpts.initial).long_options } (by decide)⟩

/-! ## The scanner in POSIX mode -/

end Getopt
